import Mathlib

/-!
Verification development for the VisionWorkbench spatial-tree component and
the bundle-adjustment control-network classes.

The spatial tree itself (`vw/Math/SpatialTree.h/.cc`) is not among the
available sources; only its test suite (`TestSpatialTree`) is.  The tree is
therefore modelled from the specification, calibrated against the literal
print fixtures of the test suite (`TEST_SPATIAL_TREE_PRINT_RESULT_1D/2D`),
which pin down the subdivision rule, the child (octant) ordering and the
print format byte for byte.

The C++ `double` coordinates (all of which are exact decimals in the
fixtures, and which the tree only ever adds, halves and compares) are
embedded as exact fractions: an integer numerator over a positive integer
denominator, kept unnormalized so that every arithmetic operation is a
plain computation the kernel can evaluate.  The valuation `Frac.val` into
`ℚ` is used to transfer the order properties.

A point or a box corner is a `List Frac` whose length is the dimension.
Geometric primitives are kept generic in a type `P` equipped with a
bounding-box function, mirroring the `GeomPrimitive` capability interface.
Tree nodes form a sibling-linked forest (`STree`): a `node` holds its
region, its resident primitives, the chain of its children and the chain of
its following siblings, so that every traversal is a structural recursion.
-/

set_option maxHeartbeats 4000000
set_option maxRecDepth 8192

/-- An exact fraction `num / (den1 + 1)`: the embedding of the C++ `double`
coordinates (exact decimals in all reviewed material).  The denominator is
stored minus one so that it is positive by construction; fractions are not
normalized. -/
structure Frac : Type where
  num : Int
  den1 : Nat
deriving DecidableEq, Repr

/-- The denominator of a fraction, always positive. -/
def Frac.den (a : Frac) : Int := (a.den1 : Int) + 1

/-- The rational value of a fraction. -/
def Frac.val (a : Frac) : ℚ := (a.num : ℚ) / ((a.den1 : ℚ) + 1)

/-- Order on fractions by cross multiplication (denominators positive). -/
def fle (a b : Frac) : Bool := decide (a.num * b.den ≤ b.num * a.den)

/-- Strict order on fractions by cross multiplication. -/
def flt (a b : Frac) : Bool := decide (a.num * b.den < b.num * a.den)

/-- The midpoint `(a + b) / 2` of two fractions. -/
def fmid (a b : Frac) : Frac :=
  ⟨a.num * b.den + b.num * a.den, 2 * (a.den1 + 1) * (b.den1 + 1) - 1⟩

/-- The fraction `n / d` (for `d = 0` the denominator is taken as 1). -/
def fq (n : Int) (d : Nat) : Frac := ⟨n, d - 1⟩

theorem Frac.den_cast (a : Frac) : ((a.den : ℚ)) = (a.den1 : ℚ) + 1 := by
  simp [Frac.den]

theorem Frac.den_pos_q (a : Frac) : (0 : ℚ) < (a.den1 : ℚ) + 1 := by
  positivity

/-- `fle` decides the valuation order. -/
theorem fle_iff {a b : Frac} : fle a b = true ↔ a.val ≤ b.val := by
  rw [fle, decide_eq_true_iff, Frac.val, Frac.val,
    div_le_div_iff₀ (Frac.den_pos_q a) (Frac.den_pos_q b)]
  rw [← Frac.den_cast, ← Frac.den_cast]
  constructor
  · intro h
    exact_mod_cast h
  · intro h
    exact_mod_cast h

/-- `flt` decides the strict valuation order. -/
theorem flt_iff {a b : Frac} : flt a b = true ↔ a.val < b.val := by
  rw [flt, decide_eq_true_iff, Frac.val, Frac.val,
    div_lt_div_iff₀ (Frac.den_pos_q a) (Frac.den_pos_q b)]
  rw [← Frac.den_cast, ← Frac.den_cast]
  constructor
  · intro h
    exact_mod_cast h
  · intro h
    exact_mod_cast h

/-- The midpoint has the expected value. -/
theorem fmid_val (a b : Frac) : (fmid a b).val = (a.val + b.val) / 2 := by
  have h1 : (1 : Nat) ≤ 2 * (a.den1 + 1) * (b.den1 + 1) :=
    Nat.succ_le_of_lt (by positivity)
  have ha := Frac.den_pos_q a
  have hb := Frac.den_pos_q b
  have h2 : (((2 * (a.den1 + 1) * (b.den1 + 1) - 1 : Nat)) : ℚ) + 1
      = 2 * ((a.den1 : ℚ) + 1) * ((b.den1 : ℚ) + 1) := by
    rw [Nat.cast_sub h1]
    push_cast
    ring
  simp only [Frac.val, fmid, Frac.den]
  rw [h2]
  rw [div_add_div _ _ (ne_of_gt ha) (ne_of_gt hb), div_div]
  rw [div_eq_div_iff (by positivity) (by positivity)]
  push_cast
  ring

/-- Pointwise `≤` on coordinate vectors of equal length; `false` when the
lengths differ. -/
def leAll : List Frac → List Frac → Bool
  | [], [] => true
  | a :: as, b :: bs => fle a b && leAll as bs
  | _, _ => false

/-- Pointwise `<` on coordinate vectors of equal length; `false` when the
lengths differ. -/
def ltAll : List Frac → List Frac → Bool
  | [], [] => true
  | a :: as, b :: bs => flt a b && ltAll as bs
  | _, _ => false

/-- Modelled from the spec: `BBox::contains(point)` of the missing
`vw/Math/BBox.h` as used by the tree and by `TestGeomPrimitive` — a point is
inside an axis-aligned box when `min ≤ p` and `p < max` per axis (half-open
upper boundary; the reference fixture excludes the upper corner `(2,5)` of
the box `[1.5,3]-[2,5]`). -/
def boxContainsPt (bmin bmax pt : List Frac) : Bool :=
  leAll bmin pt && ltAll pt bmax

/-- Modelled from the spec: `BBox::contains(BBox)` of the missing
`vw/Math/BBox.h` — box `a` fully contains box `b` when `a.min ≤ b.min` and
`b.max ≤ a.max` per axis (closed comparison: the fixture places the
primitive `[1.5,2]` inside the node region `[1.5,2]`). -/
def boxContainsBox (amin amax bmin bmax : List Frac) : Bool :=
  leAll amin bmin && leAll bmax amax

/-- Modelled from the spec: the bbox overlap test of the missing
`vw/Math/BBox.h` — two half-open boxes overlap when `a.min < b.max` and
`b.min < a.max` per axis. -/
def boxOverlap (amin amax bmin bmax : List Frac) : Bool :=
  ltAll amin bmax && ltAll bmin amax

/-- Modelled from the spec: the 2^D child regions of a midpoint split, in
the fixed order dictated by the print fixtures — for each axis the upper
half comes before the lower half, the first axis varying slowest (for D = 2:
high-high, high-low, low-high, low-low). -/
def childBoxes : List Frac → List Frac → List (List Frac × List Frac)
  | [], [] => [([], [])]
  | m :: ms, M :: Ms =>
      let mid := fmid m M
      let rest := childBoxes ms Ms
      rest.map (fun r => (mid :: r.1, M :: r.2)) ++
        rest.map (fun r => (m :: r.1, mid :: r.2))
  | _, _ => []

/-- Modelled from the spec: the node structure of the `SpatialTree`.  A
`node` is one tree node — its region (min/max corner), the primitives
resident at the node, the chain of its child nodes (either `nilt` or the
2^D midpoint-split children in octant order) and the chain of its following
siblings.  Storing the ordered child sequence as a sibling-linked chain
keeps every traversal a plain structural recursion; a whole tree is a
single `node` whose sibling chain is `nilt`. -/
inductive STree (P : Type) : Type where
  | nilt : STree P
  | node (bmin bmax : List Frac) (prims : List P) (children : STree P)
      (next : STree P) : STree P
deriving DecidableEq

/-- All primitives held in a forest: for each chain node its residents, the
primitives of its child chain, then the following siblings. -/
def allPrims {P : Type} : STree P → List P
  | .nilt => []
  | .node _ _ ps cs next => ps ++ allPrims cs ++ allPrims next

/-- The regions of the nodes of one chain (siblings only, not descendants). -/
def chainRegions {P : Type} : STree P → List (List Frac × List Frac)
  | .nilt => []
  | .node m M _ _ next => (m, M) :: chainRegions next

/-- Replace the first node of a sibling chain whose region satisfies `pred`
by its image under `f` (which preserves the sibling link); the chain is
unchanged when no region matches. -/
def insertFirstC {P : Type} (f : STree P → STree P)
    (pred : List Frac → List Frac → Bool) : STree P → STree P
  | .nilt => .nilt
  | .node m M ps cs next =>
    if pred m M then f (.node m M ps cs next)
    else .node m M ps cs (insertFirstC f pred next)

/-- Does some node region of the chain satisfy `pred`? -/
def anyRegion {P : Type} (pred : List Frac → List Frac → Bool) : STree P → Bool
  | .nilt => false
  | .node m M _ _ next => pred m M || anyRegion pred next

/-- A chain of fresh empty nodes over the given regions. -/
def mkForest {P : Type} : List (List Frac × List Frac) → STree P
  | [] => .nilt
  | c :: rest => .node c.1 c.2 [] .nilt (mkForest rest)

/-- Modelled from the spec: `SpatialTree::add` of the missing
`vw/Math/SpatialTree.cc`.  Starting at a node, the primitive is pushed into
the first (in octant order) child whose region fully contains its bounding
box.  A childless node splits into all 2^D midpoint children as soon as an
arriving primitive fits inside one of them (the subdivision threshold
calibrated from the fixtures, whose trees subdivide for a single
primitive); on a split, already-resident primitives that fit a child are
redistributed into it.  A primitive fitting no child region stays resident
at the current node.  `fuel` is the maximum-depth cap the spec requires for
termination on degenerate geometry; the node's sibling link is preserved.
The root region is held fixed here: the root-region growth the fixtures
demonstrate (the test constructs the tree over `[0,1]^d`, yet the prints
show a `[0,16]^d` root) is represented in the placement theorems by the
hypothesis that an inserted bounding box lies inside the root region — the
state that growth establishes before the descent begins. -/
def addP {P : Type} (bb : P → List Frac × List Frac) :
    Nat → STree P → P → STree P
  | 0, t, p =>
    match t with
    | .nilt => .nilt
    | .node m M ps cs next => .node m M (ps ++ [p]) cs next
  | Nat.succ fuel, t, p =>
    match t with
    | .nilt => .nilt
    | .node m M ps cs next =>
      match cs with
      | .nilt =>
        let cands := childBoxes m M
        if cands.any (fun c => boxContainsBox c.1 c.2 (bb p).1 (bb p).2) then
          let kids0 : STree P := mkForest cands
          let fits : P → Bool := fun q =>
            cands.any (fun c => boxContainsBox c.1 c.2 (bb q).1 (bb q).2)
          let stay := ps.filter (fun q => !(fits q))
          let down := ps.filter (fun q => fits q)
          let push : STree P → P → STree P := fun ks q =>
            insertFirstC (fun k => addP bb fuel k q)
              (fun cm cM => boxContainsBox cm cM (bb q).1 (bb q).2) ks
          .node m M stay (push (down.foldl push kids0) p) next
        else
          .node m M (ps ++ [p]) .nilt next
      | .node _ _ _ _ _ =>
        if anyRegion (fun cm cM => boxContainsBox cm cM (bb p).1 (bb p).2) cs then
          .node m M ps
            (insertFirstC (fun k => addP bb fuel k p)
              (fun cm cM => boxContainsBox cm cM (bb p).1 (bb p).2) cs) next
        else
          .node m M (ps ++ [p]) cs next

/-- Modelled from the spec: `SpatialTree(rootBBox)` — a tree with one root
node covering the root region and no primitives. -/
def emptyTree {P : Type} (rmin rmax : List Frac) : STree P :=
  .node rmin rmax [] .nilt .nilt

/-- A tree built by inserting the given primitives in order into a fresh
tree over the given root region, every insertion running with the same
depth cap. -/
def buildTree {P : Type} (bb : P → List Frac × List Frac)
    (rmin rmax : List Frac) (fuel : Nat) (prims : List P) : STree P :=
  prims.foldl (fun t p => addP bb fuel t p) (emptyTree rmin rmax)

/-- Descent of the single-result `contains` over a sibling chain: enter the
first node whose region contains the point; inside it, test the resident
primitives (bounding box, then exact test), then descend into its child
chain. -/
def containsPtF {P : Type} (bb : P → List Frac × List Frac)
    (pc : P → List Frac → Bool) (pt : List Frac) : STree P → Option P
  | .nilt => none
  | .node m M ps cs next =>
    if boxContainsPt m M pt then
      match ps.find? (fun q => boxContainsPt (bb q).1 (bb q).2 pt && pc q pt) with
      | some q => some q
      | none => containsPtF bb pc pt cs
    else containsPtF bb pc pt next

/-- Modelled from the spec: the single-result `SpatialTree::contains(point)`
of the missing `vw/Math/SpatialTree.cc` — the root's residents are tested
(bounding box, then exact containment test), then the descent enters the
child whose region contains the query point, testing the residents of every
node along the path; the first qualifying primitive is returned, none when
no primitive qualifies. -/
def containsPt {P : Type} (bb : P → List Frac × List Frac)
    (pc : P → List Frac → Bool) (t : STree P) (pt : List Frac) : Option P :=
  match t with
  | .nilt => none
  | .node _ _ ps cs _ =>
    match ps.find? (fun q => boxContainsPt (bb q).1 (bb q).2 pt && pc q pt) with
    | some q => some q
    | none => containsPtF bb pc pt cs

/-- Descent of the multi-result `contains` over a sibling chain. -/
def containsAllF {P : Type} (bb : P → List Frac × List Frac)
    (pc : P → List Frac → Bool) (pt : List Frac) : STree P → List P
  | .nilt => []
  | .node m M ps cs next =>
    if boxContainsPt m M pt then
      ps.filter (fun q => boxContainsPt (bb q).1 (bb q).2 pt && pc q pt) ++
        containsAllF bb pc pt cs
    else containsAllF bb pc pt next

/-- Modelled from the spec: the multi-result
`SpatialTree::contains(point, list)` of the missing `vw/Math/SpatialTree.cc`
— same descent as the single-result form, appending every qualifying
resident primitive along the path in traversal order. -/
def containsMulti {P : Type} (bb : P → List Frac × List Frac)
    (pc : P → List Frac → Bool) (t : STree P) (pt : List Frac) : List P :=
  match t with
  | .nilt => []
  | .node _ _ ps cs _ =>
    ps.filter (fun q => boxContainsPt (bb q).1 (bb q).2 pt && pc q pt) ++
      containsAllF bb pc pt cs

/-- Unordered pairs among one node's resident primitives whose bounding
boxes overlap, each emitted once with the earlier resident first. -/
def pairsAmong {P : Type} (bb : P → List Frac × List Frac) :
    List P → List (P × P)
  | [] => []
  | p :: ps =>
    (ps.filter (fun q => boxOverlap (bb p).1 (bb p).2 (bb q).1 (bb q).2)).map
        (fun q => (p, q)) ++
      pairsAmong bb ps

/-- Pairs of one resident primitive against the primitives of a descendant
forest whose bounding boxes overlap it, pruned by the spec's
bbox-region-overlap test: a subtree whose node region does not overlap the
resident's bounding box is skipped entirely (its siblings are still
scanned). -/
def residentCrossF {P : Type} (bb : P → List Frac × List Frac) (r : P) :
    STree P → List (P × P)
  | .nilt => []
  | .node m M ps cs next =>
    (if boxOverlap (bb r).1 (bb r).2 m M then
      (ps.filter
            (fun q => boxOverlap (bb r).1 (bb r).2 (bb q).1 (bb q).2)).map
          (fun q => (r, q)) ++
        residentCrossF bb r cs
    else []) ++ residentCrossF bb r next

/-- All resident-versus-descendant pairs of one node: every resident of the
node against its child forest. -/
def crossAllC {P : Type} (bb : P → List Frac × List Frac) (ps : List P)
    (cs : STree P) : List (P × P) :=
  ps.flatMap (fun r => residentCrossF bb r cs)

/-- Cross pairs of one subtree (given by its region and its full primitive
list) against each of its later siblings, pruned by the spec's
region-overlap test: a sibling pair whose node regions do not overlap is
skipped entirely (for midpoint-split siblings this is always the case),
otherwise all bbox-overlapping cross pairs are emitted. -/
def sibOne {P : Type} (bb : P → List Frac × List Frac) (m M : List Frac)
    (aps : List P) : STree P → List (P × P)
  | .nilt => []
  | .node m2 M2 ps2 cs2 next2 =>
    (if boxOverlap m M m2 M2 then
      aps.flatMap (fun a =>
        ((ps2 ++ allPrims cs2).filter
            (fun b => boxOverlap (bb a).1 (bb a).2 (bb b).1 (bb b).2)).map
          (fun b => (a, b)))
    else []) ++ sibOne bb m M aps next2

/-- Modelled from the spec: `SpatialTree::overlap_pairs` of the missing
`vw/Math/SpatialTree.cc`, over a forest — every unordered pair of distinct
primitives whose bounding boxes overlap, found by a pairwise test within
each node's resident set, each resident against the node's descendant
subtrees, each node's subtree against its later siblings (both pruned by
the region-overlap test), and recursion into children and siblings. -/
def overlapPairsF {P : Type} (bb : P → List Frac × List Frac) :
    STree P → List (P × P)
  | .nilt => []
  | .node m M ps cs next =>
    pairsAmong bb ps ++ crossAllC bb ps cs ++
      sibOne bb m M (ps ++ allPrims cs) next ++
      overlapPairsF bb cs ++ overlapPairsF bb next

/-- A string of `n` spaces. -/
def spacesStr (n : Nat) : String := String.mk (List.replicate n ' ')

/-- Smallest `k ≤ fuel` such that `n * 10^k` is divisible by `d` (0 when
the fuel runs out). -/
def fracDecExp : Nat → Int → Int → Nat
  | 0, _, _ => 0
  | Nat.succ fuel, n, d => if n % d == 0 then 0 else fracDecExp fuel (n * 10) d + 1

/-- Modelled from the spec: the coordinate formatting of the missing
`vw/Math` stream output — default C++ `ostream` formatting of the fixture's
double values, i.e. shortest terminating decimal without trailing zeros
(`16`, `9.5`, `0.1`, `9.125`). -/
def fmtF (a : Frac) : String :=
  let k := fracDecExp 32 a.num a.den
  let q : Int := (a.num * 10 ^ k) / a.den
  let sign := if q < 0 then "-" else ""
  let n := q.natAbs
  if k == 0 then sign ++ toString n
  else
    let fpStr := toString (n % 10 ^ k)
    sign ++ toString (n / 10 ^ k) ++ "." ++
      String.mk (List.replicate (k - fpStr.length) '0') ++ fpStr

/-- Modelled from the spec: the `Vector` output format of the missing
`vw/Math/Vector.h` stream operator as it appears in the fixtures, e.g.
`Vector2(0.1,0.2)`. -/
def fmtVec (v : List Frac) : String :=
  "Vector" ++ toString v.length ++ "(" ++
    String.intercalate "," (v.map fmtF) ++ ")"

/-- One node header line of `print`: two spaces of indentation per depth, a
`+ ` marker, then the node region. -/
def nodeLine (d : Nat) (m M : List Frac) : String :=
  spacesStr (2 * d) ++ "+ Min[" ++ fmtVec m ++ "] Max[" ++ fmtVec M ++ "]\n"

/-- One resident-primitive line of `print`: indented one level deeper than
its node, no marker, the primitive's bounding box. -/
def primLine (d : Nat) (m M : List Frac) : String :=
  spacesStr (2 * d) ++ "Min[" ++ fmtVec m ++ "] Max[" ++ fmtVec M ++ "]\n"

/-- Modelled from the spec: `SpatialTree::print` of the missing
`vw/Math/SpatialTree.cc` over a forest — depth-first dump; for each chain
node the node header, then the node's resident primitives, then the child
subtrees in octant order, then the following siblings (the order the
byte-exact fixtures exhibit). -/
def printF {P : Type} (bb : P → List Frac × List Frac) :
    Nat → STree P → String
  | _, .nilt => ""
  | d, .node m M ps cs next =>
    nodeLine d m M ++
      (String.join (ps.map (fun p => primLine (d + 1) (bb p).1 (bb p).2)) ++
        (printF bb (d + 1) cs ++ printF bb d next))

/-- The print order asserted by the claim under test (a second definition
following the claim's words, for comparison with `printF`): at each node
the child subtrees are emitted before the node's trailing resident
primitives. -/
def printChildrenFirstF {P : Type} (bb : P → List Frac × List Frac) :
    Nat → STree P → String
  | _, .nilt => ""
  | d, .node m M ps cs next =>
    nodeLine d m M ++
      (printChildrenFirstF bb (d + 1) cs ++
        (String.join (ps.map (fun p => primLine (d + 1) (bb p).1 (bb p).2)) ++
          printChildrenFirstF bb d next))

/-- A concrete geometric primitive of the test fixture
(`TestGeomPrimitive`): an identifier (standing for the C++ object identity)
and the bounding box grown from the fixture points.  Its exact containment
test is the bounding-box test itself. -/
structure GeomPrim : Type where
  pid : Nat
  bmin : List Frac
  bmax : List Frac
deriving DecidableEq, Repr

/-- Bounding-box interface of `GeomPrim`. -/
def gbb (g : GeomPrim) : List Frac × List Frac := (g.bmin, g.bmax)

/-- Exact containment test of `TestGeomPrimitive`: the bounding-box test
(`bool contains(point) {return BBoxN::contains(point);}`). -/
def gpc (g : GeomPrim) (pt : List Frac) : Bool := boxContainsPt g.bmin g.bmax pt

/-- Fixture primitive `g0` of the 1D test: bbox grown from `0.1` and `0.2`. -/
def g0₁ : GeomPrim := ⟨0, [fq 1 10], [fq 2 10]⟩

/-- Fixture primitive `g1` of the 1D test: bbox grown from `1` and `1.75`. -/
def g1₁ : GeomPrim := ⟨1, [fq 1 1], [fq 175 100]⟩

/-- Fixture primitive `g2` of the 1D test: bbox grown from `1.5` and `2`. -/
def g2₁ : GeomPrim := ⟨2, [fq 15 10], [fq 2 1]⟩

/-- Fixture primitive `g3` of the 1D test: bbox grown from `9` and `9.1`. -/
def g3₁ : GeomPrim := ⟨3, [fq 9 1], [fq 91 10]⟩

/-- Fixture primitive `g4` of the 1D test: bbox grown from `0.01` and `6`. -/
def g4₁ : GeomPrim := ⟨4, [fq 1 100], [fq 6 1]⟩

/-- Fixture primitive `g0` of the 2D test: bbox `[0.1,0.1]-[0.2,0.2]`. -/
def g0₂ : GeomPrim := ⟨0, [fq 1 10, fq 1 10], [fq 2 10, fq 2 10]⟩

/-- Fixture primitive `g1` of the 2D test: bbox `[1,2]-[1.75,4]`. -/
def g1₂ : GeomPrim := ⟨1, [fq 1 1, fq 2 1], [fq 175 100, fq 4 1]⟩

/-- Fixture primitive `g2` of the 2D test: bbox `[1.5,3]-[2,5]`. -/
def g2₂ : GeomPrim := ⟨2, [fq 15 10, fq 3 1], [fq 2 1, fq 5 1]⟩

/-- Fixture primitive `g3` of the 2D test: bbox `[9,9]-[9.1,9.1]`. -/
def g3₂ : GeomPrim := ⟨3, [fq 9 1, fq 9 1], [fq 91 10, fq 91 10]⟩

/-- Fixture primitive `g4` of the 2D test: bbox `[0.01,0.01]-[6,6]`. -/
def g4₂ : GeomPrim := ⟨4, [fq 1 100, fq 1 100], [fq 6 1, fq 6 1]⟩

/-- 1D fixture root region `[0,16]` (the constructor grows the initial bbox
`[0,1]^d` of the test to cover the inserted primitives; the fixture prints
show the grown root `[0,16]^d`). -/
def fixRoot1 : List Frac × List Frac := ([fq 0 1], [fq 16 1])

/-- 2D fixture root region `[0,16]^2`. -/
def fixRoot2 : List Frac × List Frac := ([fq 0 1, fq 0 1], [fq 16 1, fq 16 1])

/-- Depth cap used for the fixture trees (never reached there). -/
def fixFuel : Nat := 32

/-- The 1D fixture tree after inserting `g0..g3` (the state whose print
output the test compares to the fixture string). -/
def tree1D₄ : STree GeomPrim :=
  buildTree gbb fixRoot1.1 fixRoot1.2 fixFuel [g0₁, g1₁, g2₁, g3₁]

/-- The 2D fixture tree after inserting `g0..g3`. -/
def tree2D₄ : STree GeomPrim :=
  buildTree gbb fixRoot2.1 fixRoot2.2 fixFuel [g0₂, g1₂, g2₂, g3₂]

/-- The 2D fixture tree after inserting `g0` and `g1` only (the state in
which the test issues its first `contains` queries). -/
def tree2D₂ : STree GeomPrim :=
  buildTree gbb fixRoot2.1 fixRoot2.2 fixFuel [g0₂, g1₂]

/-- The 2D fixture tree after inserting `g0`, `g1` and `g2`. -/
def tree2D₃ : STree GeomPrim :=
  buildTree gbb fixRoot2.1 fixRoot2.2 fixFuel [g0₂, g1₂, g2₂]

/-- The 2D fixture tree after additionally inserting the large spanning
primitive `g4`. -/
def tree2D₅ : STree GeomPrim :=
  buildTree gbb fixRoot2.1 fixRoot2.2 fixFuel [g0₂, g1₂, g2₂, g3₂, g4₂]
/-- Literal print fixture `TEST_SPATIAL_TREE_PRINT_RESULT_1D` from the test suite. -/
def fixturePrint1D : String :=
  "+ Min[Vector1(0)] Max[Vector1(16)]
  + Min[Vector1(8)] Max[Vector1(16)]
    + Min[Vector1(12)] Max[Vector1(16)]
    + Min[Vector1(8)] Max[Vector1(12)]
      + Min[Vector1(10)] Max[Vector1(12)]
      + Min[Vector1(8)] Max[Vector1(10)]
        + Min[Vector1(9)] Max[Vector1(10)]
          + Min[Vector1(9.5)] Max[Vector1(10)]
          + Min[Vector1(9)] Max[Vector1(9.5)]
            + Min[Vector1(9.25)] Max[Vector1(9.5)]
            + Min[Vector1(9)] Max[Vector1(9.25)]
              + Min[Vector1(9.125)] Max[Vector1(9.25)]
              + Min[Vector1(9)] Max[Vector1(9.125)]
                Min[Vector1(9)] Max[Vector1(9.1)]
        + Min[Vector1(8)] Max[Vector1(9)]
  + Min[Vector1(0)] Max[Vector1(8)]
    + Min[Vector1(4)] Max[Vector1(8)]
    + Min[Vector1(0)] Max[Vector1(4)]
      + Min[Vector1(2)] Max[Vector1(4)]
      + Min[Vector1(0)] Max[Vector1(2)]
        + Min[Vector1(1)] Max[Vector1(2)]
          Min[Vector1(1)] Max[Vector1(1.75)]
          + Min[Vector1(1.5)] Max[Vector1(2)]
            Min[Vector1(1.5)] Max[Vector1(2)]
          + Min[Vector1(1)] Max[Vector1(1.5)]
        + Min[Vector1(0)] Max[Vector1(1)]
          + Min[Vector1(0.5)] Max[Vector1(1)]
          + Min[Vector1(0)] Max[Vector1(0.5)]
            + Min[Vector1(0.25)] Max[Vector1(0.5)]
            + Min[Vector1(0)] Max[Vector1(0.25)]
              Min[Vector1(0.1)] Max[Vector1(0.2)]
"

/-- Literal print fixture `TEST_SPATIAL_TREE_PRINT_RESULT_2D` from the test suite. -/
def fixturePrint2D : String :=
  "+ Min[Vector2(0,0)] Max[Vector2(16,16)]
  + Min[Vector2(8,8)] Max[Vector2(16,16)]
    + Min[Vector2(12,12)] Max[Vector2(16,16)]
    + Min[Vector2(12,8)] Max[Vector2(16,12)]
    + Min[Vector2(8,12)] Max[Vector2(12,16)]
    + Min[Vector2(8,8)] Max[Vector2(12,12)]
      + Min[Vector2(10,10)] Max[Vector2(12,12)]
      + Min[Vector2(10,8)] Max[Vector2(12,10)]
      + Min[Vector2(8,10)] Max[Vector2(10,12)]
      + Min[Vector2(8,8)] Max[Vector2(10,10)]
        + Min[Vector2(9,9)] Max[Vector2(10,10)]
          + Min[Vector2(9.5,9.5)] Max[Vector2(10,10)]
          + Min[Vector2(9.5,9)] Max[Vector2(10,9.5)]
          + Min[Vector2(9,9.5)] Max[Vector2(9.5,10)]
          + Min[Vector2(9,9)] Max[Vector2(9.5,9.5)]
            + Min[Vector2(9.25,9.25)] Max[Vector2(9.5,9.5)]
            + Min[Vector2(9.25,9)] Max[Vector2(9.5,9.25)]
            + Min[Vector2(9,9.25)] Max[Vector2(9.25,9.5)]
            + Min[Vector2(9,9)] Max[Vector2(9.25,9.25)]
              + Min[Vector2(9.125,9.125)] Max[Vector2(9.25,9.25)]
              + Min[Vector2(9.125,9)] Max[Vector2(9.25,9.125)]
              + Min[Vector2(9,9.125)] Max[Vector2(9.125,9.25)]
              + Min[Vector2(9,9)] Max[Vector2(9.125,9.125)]
                Min[Vector2(9,9)] Max[Vector2(9.1,9.1)]
        + Min[Vector2(9,8)] Max[Vector2(10,9)]
        + Min[Vector2(8,9)] Max[Vector2(9,10)]
        + Min[Vector2(8,8)] Max[Vector2(9,9)]
  + Min[Vector2(8,0)] Max[Vector2(16,8)]
  + Min[Vector2(0,8)] Max[Vector2(8,16)]
  + Min[Vector2(0,0)] Max[Vector2(8,8)]
    Min[Vector2(1.5,3)] Max[Vector2(2,5)]
    + Min[Vector2(4,4)] Max[Vector2(8,8)]
    + Min[Vector2(4,0)] Max[Vector2(8,4)]
    + Min[Vector2(0,4)] Max[Vector2(4,8)]
    + Min[Vector2(0,0)] Max[Vector2(4,4)]
      + Min[Vector2(2,2)] Max[Vector2(4,4)]
      + Min[Vector2(2,0)] Max[Vector2(4,2)]
      + Min[Vector2(0,2)] Max[Vector2(2,4)]
        Min[Vector2(1,2)] Max[Vector2(1.75,4)]
      + Min[Vector2(0,0)] Max[Vector2(2,2)]
        + Min[Vector2(1,1)] Max[Vector2(2,2)]
        + Min[Vector2(1,0)] Max[Vector2(2,1)]
        + Min[Vector2(0,1)] Max[Vector2(1,2)]
        + Min[Vector2(0,0)] Max[Vector2(1,1)]
          + Min[Vector2(0.5,0.5)] Max[Vector2(1,1)]
          + Min[Vector2(0.5,0)] Max[Vector2(1,0.5)]
          + Min[Vector2(0,0.5)] Max[Vector2(0.5,1)]
          + Min[Vector2(0,0)] Max[Vector2(0.5,0.5)]
            + Min[Vector2(0.25,0.25)] Max[Vector2(0.5,0.5)]
            + Min[Vector2(0.25,0)] Max[Vector2(0.5,0.25)]
            + Min[Vector2(0,0.25)] Max[Vector2(0.25,0.5)]
            + Min[Vector2(0,0)] Max[Vector2(0.25,0.25)]
              Min[Vector2(0.1,0.1)] Max[Vector2(0.2,0.2)]
"

/-- Tail-recursive character-list comparison (used so that long fixture
strings can be compared by kernel evaluation). -/
def listBeqChar : List Char → List Char → Bool
  | [], [] => true
  | a :: as, b :: bs => if a == b then listBeqChar as bs else false
  | _, _ => false

theorem listBeqChar_eq : ∀ {a b : List Char}, listBeqChar a b = true → a = b
  | [], [], _ => rfl
  | a :: as, b :: bs, h => by
    rw [listBeqChar] at h
    by_cases hab : a == b
    · simp only [hab, if_true] at h
      rw [eq_of_beq hab, listBeqChar_eq h]
    · simp [hab] at h

theorem listBeqChar_refl : ∀ a : List Char, listBeqChar a a = true
  | [] => rfl
  | a :: as => by
    rw [listBeqChar, if_pos, listBeqChar_refl as]
    exact beq_self_eq_true a

/-- Byte-for-byte string equality from the tail-recursive comparison. -/
theorem string_eq_of_beq {a b : String} (h : listBeqChar a.data b.data = true) :
    a = b := by
  cases a
  cases b
  exact congrArg String.mk (listBeqChar_eq h)

/-- Byte-for-byte string inequality from the tail-recursive comparison. -/
theorem string_ne_of_beq_false {a b : String}
    (h : listBeqChar a.data b.data = false) : a ≠ b := by
  intro he
  rw [he, listBeqChar_refl b.data] at h
  exact absurd h (by simp)

/-! ## Control network classes (`src/vw/BundleAdjustment/ControlNetwork.h`) -/

/-- `ControlMeasure::ControlMeasureType` from `ControlNetwork.h`. -/
inductive ControlMeasureType : Type where
  | Unmeasured | Manual | Estimated | Automatic
  | ValidatedManual | ValidatedAutomatic
deriving DecidableEq, Repr

/-- `ControlPoint::ControlPointType` from `ControlNetwork.h`. -/
inductive ControlPointType : Type where
  | GroundControlPoint | TiePoint
deriving DecidableEq, Repr

/-- `ControlNetwork::ControlNetworkType` from `ControlNetwork.h`. -/
inductive ControlNetworkType : Type where
  | Singleton | ImageToImage | ImageToGround
deriving DecidableEq, Repr

/-- `ControlMeasure` from `ControlNetwork.h`: all data members, with the
C++ floating-point fields embedded as rationals. -/
structure ControlMeasure : Type where
  m_serialNumber : String
  m_col : ℚ
  m_row : ℚ
  m_col_sigma : ℚ
  m_row_sigma : ℚ
  m_diameter : ℚ
  m_date_time : String
  m_description : String
  m_chooserName : String
  m_focalplane_x : ℚ
  m_focalplane_y : ℚ
  m_ephemeris_time : ℚ
  m_image_id : Nat
  m_ignore : Bool
  m_pixels_dominant : Bool
  m_type : ControlMeasureType
deriving DecidableEq, Repr

/-- `ControlMeasure::position()`: the pixel location `(m_col, m_row)`. -/
def ControlMeasure.position (m : ControlMeasure) : ℚ × ℚ := (m.m_col, m.m_row)

/-- `ControlMeasure::sigma()`: `(m_col_sigma, m_row_sigma)`. -/
def ControlMeasure.sigma (m : ControlMeasure) : ℚ × ℚ :=
  (m.m_col_sigma, m.m_row_sigma)

/-- `ControlMeasure::image_id()`. -/
def ControlMeasure.image_id (m : ControlMeasure) : Nat := m.m_image_id

/-- `ControlMeasure::ephemeris_time()`. -/
def ControlMeasure.ephemeris_time (m : ControlMeasure) : ℚ := m.m_ephemeris_time

/-- `operator==(ControlMeasure, ControlMeasure)` from `ControlNetwork.h`:
returns true when position, sigma, image_id and ephemeris_time all agree,
false otherwise. -/
def cmeasureEq (m1 m2 : ControlMeasure) : Bool :=
  if m1.position = m2.position ∧ m1.sigma = m2.sigma ∧
      m1.image_id = m2.image_id ∧ m1.ephemeris_time = m2.ephemeris_time then
    true
  else
    false

/-- `ControlPoint` from `ControlNetwork.h`. -/
structure ControlPoint : Type where
  m_id : String
  m_measures : List ControlMeasure
  m_ignore : Bool
  m_position : ℚ × ℚ × ℚ
  m_sigma : ℚ × ℚ × ℚ
  m_type : ControlPointType
deriving DecidableEq, Repr

/-- `ControlPoint::type()`. -/
def ControlPoint.ctype (p : ControlPoint) : ControlPointType := p.m_type

/-- `ControlNetwork` from `ControlNetwork.h`. -/
structure ControlNetwork : Type where
  m_control_points : List ControlPoint
  m_targetName : String
  m_networkId : String
  m_created : String
  m_modified : String
  m_description : String
  m_userName : String
  m_image_names : List String
  m_type : ControlNetworkType
deriving DecidableEq, Repr

/-- `ControlNetwork::size()`: the number of control points. -/
def ControlNetwork.size (n : ControlNetwork) : Nat := n.m_control_points.length

/-- `ControlNetwork::num_ground_control_points()` from `ControlNetwork.h`:
returns 0 unless the network type is `ImageToGround`, otherwise counts the
points whose type is `GroundControlPoint`. -/
def num_ground_control_points (n : ControlNetwork) : Nat :=
  if n.m_type ≠ ControlNetworkType.ImageToGround then 0
  else
    n.m_control_points.countP
      (fun p => decide (p.ctype = ControlPointType.GroundControlPoint))

/-- A ground control point with no measures (concrete instance for the
claims about `num_ground_control_points`). -/
def gcpPoint (i : String) : ControlPoint :=
  ⟨i, [], false, (0, 0, 0), (1, 1, 1), ControlPointType.GroundControlPoint⟩

/-- A tie point with no measures. -/
def tiePoint (i : String) : ControlPoint :=
  ⟨i, [], false, (0, 0, 0), (1, 1, 1), ControlPointType.TiePoint⟩

/-- A concrete `ImageToImage` network that nevertheless contains two ground
control points. -/
def cnetImageToImage : ControlNetwork :=
  ⟨[gcpPoint "a", tiePoint "b", gcpPoint "c"], "Moon", "net0", "d", "m",
    "descr", "VW", [], ControlNetworkType.ImageToImage⟩

/-- The same point list in an `ImageToGround` network. -/
def cnetImageToGround : ControlNetwork :=
  ⟨[gcpPoint "a", tiePoint "b", gcpPoint "c"], "Moon", "net0", "d", "m",
    "descr", "VW", [], ControlNetworkType.ImageToGround⟩

/-- Fixture measure for the equality claims: every field populated. -/
def cmMeasA : ControlMeasure :=
  ⟨"s1", 1, 2, 3, 4, 5, "d", "de", "ch", 6, 7, 8, 9, false, true,
    ControlMeasureType.Manual⟩

/-- Same position, sigma, image id and ephemeris time as `cmMeasA`, every
other field different. -/
def cmMeasB : ControlMeasure :=
  ⟨"s2", 1, 2, 3, 4, 50, "dx", "dy", "cz", 60, 70, 8, 9, true, false,
    ControlMeasureType.Automatic⟩

/-- Same as `cmMeasA` except for the ephemeris time. -/
def cmMeasC : ControlMeasure :=
  ⟨"s1", 1, 2, 3, 4, 5, "d", "de", "ch", 6, 7, 80, 9, false, true,
    ControlMeasureType.Manual⟩

/-- Claim C9: `ControlNetwork::num_ground_control_points` returns 0 for
every network whose type is not `ImageToGround`, even if the network
contains points whose type is `GroundControlPoint`; only when the network
type is `ImageToGround` does it return the count of contained
`GroundControlPoint` points (shown on a concrete `ImageToImage` network
holding two ground control points, and the same point list under
`ImageToGround`). -/
theorem C9_num_ground_control_points :
    (∀ net : ControlNetwork,
        num_ground_control_points net =
          if net.m_type = ControlNetworkType.ImageToGround then
            (net.m_control_points.filter
                (fun p =>
                  decide (p.ctype = ControlPointType.GroundControlPoint))).length
          else 0) ∧
    num_ground_control_points cnetImageToImage = 0 ∧
    num_ground_control_points cnetImageToGround = 2 := by
  refine ⟨fun net => ?_, by decide, by decide⟩
  rw [num_ground_control_points]
  by_cases h : net.m_type = ControlNetworkType.ImageToGround
  · rw [if_neg (not_not_intro h), if_pos h, List.countP_eq_length_filter]
  · rw [if_pos h, if_neg h]

/-- Claim C10: `operator==(ControlMeasure, ControlMeasure)` returns true if
and only if the two measures agree on position, sigma, image id and
ephemeris time; the ephemeris time participates in the equality (measures
agreeing on the other three but differing in ephemeris time compare
unequal) and every other field is ignored (measures differing in all other
fields compare equal). -/
theorem C10_control_measure_eq_iff :
    (∀ m1 m2 : ControlMeasure,
        cmeasureEq m1 m2 = true ↔
          m1.position = m2.position ∧ m1.sigma = m2.sigma ∧
            m1.image_id = m2.image_id ∧
            m1.ephemeris_time = m2.ephemeris_time) ∧
    cmeasureEq cmMeasA cmMeasB = true ∧
    cmeasureEq cmMeasA cmMeasC = false := by
  refine ⟨fun m1 m2 => ?_, by decide, by decide⟩
  by_cases h : m1.position = m2.position ∧ m1.sigma = m2.sigma ∧
      m1.image_id = m2.image_id ∧ m1.ephemeris_time = m2.ephemeris_time
  · simp [cmeasureEq, h]
  · simp [cmeasureEq, h]

/-- Claim C3 counterexample: the claimed traversal order (child subtrees
emitted before the node's trailing resident primitives) does not reproduce
the byte-exact 2D fixture — the fixture prints a node's resident primitives
before its child subtrees. -/
theorem C3_children_first_differs_from_fixture :
    printChildrenFirstF gbb 0 tree2D₄ ≠ fixturePrint2D :=
  string_ne_of_beq_false (by decide)

/-- Claim C3 (amended): `print` writes a depth-first dump in which, at
every node, the node's resident primitives are emitted before its child
subtrees (children in the fixed octant order), and for the reference 1D and
2D fixtures its entire output equals the fixture literal strings byte for
byte. -/
theorem C3_print_matches_fixtures :
    printF gbb 0 tree1D₄ = fixturePrint1D ∧
      printF gbb 0 tree2D₄ = fixturePrint2D :=
  ⟨string_eq_of_beq (by decide), string_eq_of_beq (by decide)⟩

/-- Claim C5 counterexample: after inserting all three primitives
`[0.1,0.1]-[0.2,0.2]`, `[1,2]-[1.75,4]` and `[1.5,3]-[2,5]`, the query
point `(1.5,3)` lies in the last two primitives, and `contains` returns the
`[1.5,3]-[2,5]` primitive (resident higher in the tree), not the
`[1,2]-[1.75,4]` one the claim names. -/
theorem C5_contains_counterexample :
    containsPt gbb gpc tree2D₃ [fq 15 10, fq 3 1] ≠ some g1₂ ∧
      containsPt gbb gpc tree2D₃ [fq 15 10, fq 3 1] = some g2₂ := by
  exact ⟨by decide, by decide⟩

/-- Claim C5 (amended): in the 2D reference scenario the queries are issued
after inserting only the first two primitives (as the fixture does):
`contains((1.5,3))` then returns the `[1,2]-[1.75,4]` primitive and
`contains((2,5))` returns null; `contains((2,5))` remains null (and the
multi-result form appends nothing) after the `[1.5,3]-[2,5]` primitive is
inserted, its upper bbox corner being excluded by the half-open boundary
semantics. -/
theorem C5_fixture_queries :
    containsPt gbb gpc tree2D₂ [fq 15 10, fq 3 1] = some g1₂ ∧
      containsMulti gbb gpc tree2D₂ [fq 15 10, fq 3 1] = [g1₂] ∧
      containsPt gbb gpc tree2D₂ [fq 2 1, fq 5 1] = none ∧
      containsMulti gbb gpc tree2D₂ [fq 2 1, fq 5 1] = [] ∧
      containsPt gbb gpc tree2D₃ [fq 2 1, fq 5 1] = none ∧
      containsMulti gbb gpc tree2D₃ [fq 2 1, fq 5 1] = [] := by
  refine ⟨by decide, by decide, by decide, by decide, by decide, by decide⟩

/-- Claim C6: in the 2D reference fixture, `overlap_pairs` on the four
primitives `g0..g3` yields exactly one pair, the (unordered) pair of the
`[1,2]-[1.75,4]` and `[1.5,3]-[2,5]` primitives; after additionally
inserting the spanning primitive `g4` with bbox `[0.01,0.01]-[6,6]` it
yields exactly four pairs which, as an unordered-pair set, equal
`{(g4,g2), (g4,g1), (g4,g0), (g2,g1)}`. -/
theorem C6_overlap_pairs_fixture :
    (overlapPairsF gbb tree2D₄).length = 1 ∧
      ((g1₂, g2₂) ∈ overlapPairsF gbb tree2D₄ ∨
        (g2₂, g1₂) ∈ overlapPairsF gbb tree2D₄) ∧
      (overlapPairsF gbb tree2D₅).length = 4 ∧
      ([(g4₂, g2₂), (g4₂, g1₂), (g4₂, g0₂), (g2₂, g1₂)].all fun ab =>
        decide (ab ∈ overlapPairsF gbb tree2D₅ ∨
          (ab.2, ab.1) ∈ overlapPairsF gbb tree2D₅)) = true ∧
      ((overlapPairsF gbb tree2D₅).all fun ab =>
        decide (ab ∈ [(g4₂, g2₂), (g4₂, g1₂), (g4₂, g0₂), (g2₂, g1₂)] ∨
          (ab.2, ab.1) ∈
            [(g4₂, g2₂), (g4₂, g1₂), (g4₂, g0₂), (g2₂, g1₂)])) = true := by
  refine ⟨by decide, by decide, by decide, by decide, by decide⟩

/-! ## Order lemmas for fractions and coordinate vectors -/

theorem fle_trans {a b c : Frac} (h1 : fle a b = true) (h2 : fle b c = true) :
    fle a c = true :=
  fle_iff.mpr (le_trans (fle_iff.mp h1) (fle_iff.mp h2))

theorem flt_of_flt_fle {a b c : Frac} (h1 : flt a b = true)
    (h2 : fle b c = true) : flt a c = true :=
  flt_iff.mpr (lt_of_lt_of_le (flt_iff.mp h1) (fle_iff.mp h2))

theorem flt_of_fle_flt {a b c : Frac} (h1 : fle a b = true)
    (h2 : flt b c = true) : flt a c = true :=
  flt_iff.mpr (lt_of_le_of_lt (fle_iff.mp h1) (flt_iff.mp h2))

theorem flt_irrefl (a : Frac) : flt a a = false := by
  rw [Bool.eq_false_iff]
  intro h
  exact lt_irrefl _ (flt_iff.mp h)

theorem fle_mid_left {a b : Frac} (h : fle a b = true) :
    fle a (fmid a b) = true := by
  rw [fle_iff] at h ⊢
  rw [fmid_val]
  linarith

theorem fle_mid_right {a b : Frac} (h : fle a b = true) :
    fle (fmid a b) b = true := by
  rw [fle_iff] at h ⊢
  rw [fmid_val]
  linarith

theorem leAll_trans : ∀ {a b c : List Frac}, leAll a b = true →
    leAll b c = true → leAll a c = true
  | [], [], [], h1, _ => h1
  | [], [], _ :: _, _, h2 => by simp [leAll] at h2
  | [], _ :: _, _, h1, _ => by simp [leAll] at h1
  | _ :: _, [], _, h1, _ => by simp [leAll] at h1
  | _ :: _, _ :: _, [], _, h2 => by simp [leAll] at h2
  | x :: xs, y :: ys, z :: zs, h1, h2 => by
    rw [leAll, Bool.and_eq_true] at h1 h2 ⊢
    exact ⟨fle_trans h1.1 h2.1, leAll_trans h1.2 h2.2⟩

theorem ltAll_of_ltAll_leAll : ∀ {a b c : List Frac}, ltAll a b = true →
    leAll b c = true → ltAll a c = true
  | [], [], [], h1, _ => h1
  | [], [], _ :: _, _, h2 => by simp [leAll] at h2
  | [], _ :: _, _, h1, _ => by simp [ltAll] at h1
  | _ :: _, [], _, h1, _ => by simp [ltAll] at h1
  | _ :: _, _ :: _, [], _, h2 => by simp [leAll] at h2
  | x :: xs, y :: ys, z :: zs, h1, h2 => by
    rw [ltAll, Bool.and_eq_true] at h1 ⊢
    rw [leAll, Bool.and_eq_true] at h2
    exact ⟨flt_of_flt_fle h1.1 h2.1, ltAll_of_ltAll_leAll h1.2 h2.2⟩

theorem ltAll_of_leAll_ltAll : ∀ {a b c : List Frac}, leAll a b = true →
    ltAll b c = true → ltAll a c = true
  | [], [], [], h1, _ => h1
  | [], [], _ :: _, _, h2 => by simp [ltAll] at h2
  | [], _ :: _, _, h1, _ => by simp [leAll] at h1
  | _ :: _, [], _, h1, _ => by simp [leAll] at h1
  | _ :: _, _ :: _, [], _, h2 => by simp [ltAll] at h2
  | x :: xs, y :: ys, z :: zs, h1, h2 => by
    rw [leAll, Bool.and_eq_true] at h1
    rw [ltAll, Bool.and_eq_true] at h2 ⊢
    exact ⟨flt_of_fle_flt h1.1 h2.1, ltAll_of_leAll_ltAll h1.2 h2.2⟩

/-! ## Box lemmas -/

theorem boxOverlap_symm (amin amax bmin bmax : List Frac) :
    boxOverlap amin amax bmin bmax = boxOverlap bmin bmax amin amax := by
  rw [boxOverlap, boxOverlap, Bool.and_comm]

theorem boxContainsBox_trans {a A b B c C : List Frac}
    (h1 : boxContainsBox a A b B = true) (h2 : boxContainsBox b B c C = true) :
    boxContainsBox a A c C = true := by
  rw [boxContainsBox, Bool.and_eq_true] at h1 h2 ⊢
  exact ⟨leAll_trans h1.1 h2.1, leAll_trans h2.2 h1.2⟩

/-- A box overlapping a contained box overlaps the container. -/
theorem boxOverlap_mono {c C q Q r R : List Frac}
    (hc : boxContainsBox c C q Q = true) (ho : boxOverlap r R q Q = true) :
    boxOverlap r R c C = true := by
  rw [boxContainsBox, Bool.and_eq_true] at hc
  rw [boxOverlap, Bool.and_eq_true] at ho ⊢
  exact ⟨ltAll_of_ltAll_leAll ho.1 hc.2, ltAll_of_leAll_ltAll hc.1 ho.2⟩

/-- Two boxes both containing a box of positive extent overlap. -/
theorem boxOverlap_of_common {c C d D b B : List Frac}
    (h1 : boxContainsBox c C b B = true) (h2 : boxContainsBox d D b B = true)
    (hb : ltAll b B = true) : boxOverlap c C d D = true := by
  rw [boxContainsBox, Bool.and_eq_true] at h1 h2
  rw [boxOverlap, Bool.and_eq_true]
  exact ⟨ltAll_of_leAll_ltAll h1.1 (ltAll_of_ltAll_leAll hb h2.2),
    ltAll_of_leAll_ltAll h2.1 (ltAll_of_ltAll_leAll hb h1.2)⟩

theorem boxOverlap_cons {p q p' q' : Frac} {rmin rmax smin smax : List Frac} :
    boxOverlap (p :: rmin) (q :: rmax) (p' :: smin) (q' :: smax)
      = ((flt p q' && flt p' q) && boxOverlap rmin rmax smin smax) := by
  rw [boxOverlap, boxOverlap, ltAll, ltAll]
  cases flt p q' <;> cases flt p' q <;>
    cases ltAll rmin smax <;> cases ltAll smin rmax <;> rfl

/-- Distinct midpoint-split cells never pass the strict overlap test. -/
theorem childBoxes_pairwise : ∀ m M : List Frac,
    List.Pairwise (fun c d => boxOverlap c.1 c.2 d.1 d.2 = false)
      (childBoxes m M)
  | [], [] => by simp [childBoxes]
  | [], _ :: _ => by simp [childBoxes]
  | _ :: _, [] => by simp [childBoxes]
  | x :: xs, X :: Xs => by
    rw [childBoxes]
    have ih := childBoxes_pairwise xs Xs
    rw [List.pairwise_append]
    refine ⟨?_, ?_, ?_⟩
    · refine List.Pairwise.map _ ?_ ih
      intro a b hab
      rw [boxOverlap_cons, hab, Bool.and_false]
    · refine List.Pairwise.map _ ?_ ih
      intro a b hab
      rw [boxOverlap_cons, hab, Bool.and_false]
    · intro a ha b hb
      rw [List.mem_map] at ha hb
      obtain ⟨r, _, rfl⟩ := ha
      obtain ⟨s, _, rfl⟩ := hb
      rw [boxOverlap_cons, flt_irrefl, Bool.false_and, Bool.false_and]

/-- Each midpoint-split cell is a valid box contained in its (valid)
parent box. -/
theorem childBoxes_sub : ∀ {m M : List Frac}, leAll m M = true →
    ∀ c ∈ childBoxes m M,
      boxContainsBox m M c.1 c.2 = true ∧ leAll c.1 c.2 = true
  | [], [], _ => by simp [childBoxes, boxContainsBox, leAll]
  | [], _ :: _, h => by simp [leAll] at h
  | _ :: _, [], h => by simp [leAll] at h
  | x :: xs, X :: Xs, h => by
    rw [leAll, Bool.and_eq_true] at h
    intro c hc
    rw [childBoxes, List.mem_append, List.mem_map, List.mem_map] at hc
    have hml := fle_mid_left h.1
    have hmr := fle_mid_right h.1
    have hxx : fle x x = true := fle_iff.mpr le_rfl
    have hXX : fle X X = true := fle_iff.mpr le_rfl
    rcases hc with ⟨r, hr, rfl⟩ | ⟨r, hr, rfl⟩
    · obtain ⟨hsub, hval⟩ := childBoxes_sub h.2 r hr
      rw [boxContainsBox, Bool.and_eq_true] at hsub
      constructor
      · rw [boxContainsBox, leAll, leAll, Bool.and_eq_true, Bool.and_eq_true,
          Bool.and_eq_true]
        exact ⟨⟨hml, hsub.1⟩, hXX, hsub.2⟩
      · rw [leAll, Bool.and_eq_true]
        exact ⟨hmr, hval⟩
    · obtain ⟨hsub, hval⟩ := childBoxes_sub h.2 r hr
      rw [boxContainsBox, Bool.and_eq_true] at hsub
      constructor
      · rw [boxContainsBox, leAll, leAll, Bool.and_eq_true, Bool.and_eq_true,
          Bool.and_eq_true]
        exact ⟨⟨hxx, hsub.1⟩, hmr, hsub.2⟩
      · rw [leAll, Bool.and_eq_true]
        exact ⟨hml, hval⟩

/-! ## Structural lemmas about insertion -/

theorem addP_node_shape {P : Type} (bb : P → List Frac × List Frac) :
    ∀ (fuel : Nat) (m M : List Frac) (ps : List P) (cs next : STree P) (p : P),
      ∃ ps' cs', addP bb fuel (.node m M ps cs next) p = .node m M ps' cs' next := by
  intro fuel m M ps cs next p
  cases fuel with
  | zero => exact ⟨ps ++ [p], cs, rfl⟩
  | succ f =>
    cases cs with
    | nilt =>
      rw [addP]
      split
      · exact ⟨_, _, rfl⟩
      · exact ⟨_, _, rfl⟩
    | node a b c d e =>
      rw [addP]
      split
      · exact ⟨_, _, rfl⟩
      · exact ⟨_, _, rfl⟩

theorem addP_chainRegions {P : Type} (bb : P → List Frac × List Frac)
    (fuel : Nat) (t : STree P) (p : P) :
    chainRegions (addP bb fuel t p) = chainRegions t := by
  cases t with
  | nilt => cases fuel <;> rfl
  | node m M ps cs next =>
    obtain ⟨ps', cs', he⟩ := addP_node_shape bb fuel m M ps cs next p
    rw [he, chainRegions, chainRegions]

theorem insertFirstC_chainRegions {P : Type} (f : STree P → STree P)
    (pred : List Frac → List Frac → Bool)
    (hf : ∀ t, chainRegions (f t) = chainRegions t) :
    ∀ ks : STree P, chainRegions (insertFirstC f pred ks) = chainRegions ks
  | .nilt => rfl
  | .node m M ps cs next => by
    rw [insertFirstC]
    split
    · rw [hf]
    · rw [chainRegions, chainRegions,
        insertFirstC_chainRegions f pred hf next]

theorem mkForest_chainRegions {P : Type} :
    ∀ l : List (List Frac × List Frac), chainRegions (mkForest (P := P) l) = l
  | [] => rfl
  | c :: rest => by
    rw [mkForest, chainRegions, mkForest_chainRegions rest]

theorem mkForest_allPrims {P : Type} :
    ∀ l : List (List Frac × List Frac), allPrims (mkForest (P := P) l) = []
  | [] => rfl
  | c :: rest => by
    rw [mkForest, allPrims, allPrims, mkForest_allPrims rest]
    rfl

theorem anyRegion_eq {P : Type} (pred : List Frac → List Frac → Bool) :
    ∀ ks : STree P,
      anyRegion pred ks = (chainRegions ks).any (fun r => pred r.1 r.2)
  | .nilt => rfl
  | .node m M ps cs next => by
    rw [anyRegion, chainRegions, List.any_cons, anyRegion_eq pred next]

/-- The chain-insertion step of `addP`: push primitive `q` into the first
node of the chain whose region contains its bounding box, inserting with
the given remaining fuel. -/
def pushC {P : Type} (bb : P → List Frac × List Frac) (fuel : Nat)
    (ks : STree P) (q : P) : STree P :=
  insertFirstC (fun k => addP bb fuel k q)
    (fun cm cM => boxContainsBox cm cM (bb q).1 (bb q).2) ks

/-- The subdivision predicate of `addP`: does primitive `q` fit inside one
of the midpoint-split cells of the region `[m, M]`? -/
def fitsCell {P : Type} (bb : P → List Frac × List Frac) (m M : List Frac)
    (q : P) : Bool :=
  (childBoxes m M).any (fun c => boxContainsBox c.1 c.2 (bb q).1 (bb q).2)

theorem addP_zero {P : Type} (bb : P → List Frac × List Frac)
    (m M : List Frac) (ps : List P) (cs next : STree P) (p : P) :
    addP bb 0 (.node m M ps cs next) p = .node m M (ps ++ [p]) cs next := rfl

theorem addP_succ_nochild_nofit {P : Type} {bb : P → List Frac × List Frac}
    {m M : List Frac} {ps : List P} {next : STree P} {p : P} (fuel : Nat)
    (h : fitsCell bb m M p = false) :
    addP bb (fuel + 1) (.node m M ps .nilt next) p
      = .node m M (ps ++ [p]) .nilt next := by
  rw [addP]
  rw [if_neg]
  rw [fitsCell] at h
  simp [h]

theorem addP_succ_nochild_fit {P : Type} {bb : P → List Frac × List Frac}
    {m M : List Frac} {ps : List P} {next : STree P} {p : P} (fuel : Nat)
    (h : fitsCell bb m M p = true) :
    addP bb (fuel + 1) (.node m M ps .nilt next) p
      = .node m M (ps.filter (fun q => !fitsCell bb m M q))
          (pushC bb fuel
            ((ps.filter (fun q => fitsCell bb m M q)).foldl (pushC bb fuel)
              (mkForest (childBoxes m M))) p)
          next := by
  rw [addP]
  rw [if_pos]
  · rfl
  · rw [fitsCell] at h
    exact h

theorem addP_succ_child_fit {P : Type} {bb : P → List Frac × List Frac}
    {m M : List Frac} {ps : List P}
    {a b : List Frac} {cp : List P} {cc cn next : STree P} {p : P} (fuel : Nat)
    (h : anyRegion
          (fun cm cM => boxContainsBox cm cM (bb p).1 (bb p).2)
          (.node a b cp cc cn) = true) :
    addP bb (fuel + 1) (.node m M ps (.node a b cp cc cn) next) p
      = .node m M ps (pushC bb fuel (.node a b cp cc cn) p) next := by
  rw [addP]
  rw [if_pos h]
  rfl

theorem addP_succ_child_nofit {P : Type} {bb : P → List Frac × List Frac}
    {m M : List Frac} {ps : List P}
    {a b : List Frac} {cp : List P} {cc cn next : STree P} {p : P} (fuel : Nat)
    (h : anyRegion
          (fun cm cM => boxContainsBox cm cM (bb p).1 (bb p).2)
          (.node a b cp cc cn) = false) :
    addP bb (fuel + 1) (.node m M ps (.node a b cp cc cn) next) p
      = .node m M (ps ++ [p]) (.node a b cp cc cn) next := by
  rw [addP]
  rw [if_neg]
  simp [h]

theorem perm_append_cons {α : Type} {l2 l2' : List α} {q : α} (l1 : List α)
    (h : l2.Perm (q :: l2')) : (l1 ++ l2).Perm (q :: (l1 ++ l2')) :=
  (List.Perm.append_left l1 h).trans List.perm_middle

theorem insertFirstC_perm {P : Type} (f : STree P → STree P)
    (pred : List Frac → List Frac → Bool) (q : P)
    (hf : ∀ t : STree P, t ≠ .nilt → (allPrims (f t)).Perm (q :: allPrims t)) :
    ∀ ks : STree P, anyRegion pred ks = true →
      (allPrims (insertFirstC f pred ks)).Perm (q :: allPrims ks)
  | .nilt, h => by simp [anyRegion] at h
  | .node m M ps cs next, h => by
    rw [insertFirstC]
    split
    · exact hf _ (by simp)
    case isFalse hp =>
      rw [Bool.not_eq_true] at hp
      rw [anyRegion, hp, Bool.false_or] at h
      have ih := insertFirstC_perm f pred q hf next h
      rw [allPrims, allPrims]
      simp only [List.append_assoc]
      exact perm_append_cons ps (perm_append_cons (allPrims cs) ih)

theorem addP_perm {P : Type} (bb : P → List Frac × List Frac) :
    ∀ (fuel : Nat) (t : STree P) (p : P), t ≠ .nilt →
      (allPrims (addP bb fuel t p)).Perm (p :: allPrims t) := by
  intro fuel
  induction fuel with
  | zero =>
    intro t p ht
    cases t with
    | nilt => exact absurd rfl ht
    | node m M ps cs next =>
      rw [addP_zero, allPrims, allPrims]
      simp only [List.append_assoc, List.singleton_append, List.cons_append]
      exact List.perm_middle
  | succ fuel ih =>
    intro t p ht
    cases t with
    | nilt => exact absurd rfl ht
    | node m M ps cs next =>
      have hpushPerm : ∀ (ks : STree P) (v : P),
          anyRegion (fun cm cM => boxContainsBox cm cM (bb v).1 (bb v).2) ks
              = true →
            (allPrims (pushC bb fuel ks v)).Perm (v :: allPrims ks) := by
        intro ks v hks
        exact insertFirstC_perm _ _ v (fun u hu => ih u v hu) ks hks
      have hpushReg : ∀ (ks : STree P) (v : P),
          chainRegions (pushC bb fuel ks v) = chainRegions ks := by
        intro ks v
        exact insertFirstC_chainRegions _ _
          (fun u => addP_chainRegions bb fuel u v) ks
      cases cs with
      | nilt =>
        by_cases hfit : fitsCell bb m M p = true
        · rw [addP_succ_nochild_fit fuel hfit]
          have hfoldReg : ∀ (ds : List P) (ks : STree P),
              chainRegions (ds.foldl (pushC bb fuel) ks) = chainRegions ks := by
            intro ds
            induction ds with
            | nil => intro ks; rfl
            | cons v ds ihd =>
              intro ks
              rw [List.foldl_cons, ihd, hpushReg]
          have hany : ∀ (ks : STree P) (v : P), fitsCell bb m M v = true →
              chainRegions ks = childBoxes m M →
              anyRegion (fun cm cM => boxContainsBox cm cM (bb v).1 (bb v).2)
                  ks = true := by
            intro ks v hv hreg
            rw [anyRegion_eq, hreg]
            rw [fitsCell] at hv
            exact hv
          have hfoldPerm : ∀ (ds : List P) (ks : STree P),
              (∀ v ∈ ds, fitsCell bb m M v = true) →
              chainRegions ks = childBoxes m M →
              (allPrims (ds.foldl (pushC bb fuel) ks)).Perm
                (ds ++ allPrims ks) := by
            intro ds
            induction ds with
            | nil => intro ks _ _; exact List.Perm.refl _
            | cons v ds ihd =>
              intro ks hall hreg
              rw [List.foldl_cons]
              have h1 := ihd (pushC bb fuel ks v)
                (fun w hw => hall w (List.mem_cons_of_mem v hw))
                (by rw [hpushReg, hreg])
              have h2 := hpushPerm ks v
                (hany ks v (hall v (List.mem_cons_self v ds)) hreg)
              refine h1.trans ?_
              refine (List.Perm.append_left ds h2).trans ?_
              rw [List.cons_append]
              exact List.perm_middle
          have hkidsReg : chainRegions
              ((ps.filter (fun q => fitsCell bb m M q)).foldl (pushC bb fuel)
                (mkForest (childBoxes m M))) = childBoxes m M := by
            rw [hfoldReg, mkForest_chainRegions]
          have hkidsPerm := hfoldPerm (ps.filter (fun q => fitsCell bb m M q))
            (mkForest (childBoxes m M))
            (fun v hv => (List.mem_filter.mp hv).2)
            (mkForest_chainRegions _)
          rw [mkForest_allPrims, List.append_nil] at hkidsPerm
          have hfinal := hpushPerm
            ((ps.filter (fun q => fitsCell bb m M q)).foldl (pushC bb fuel)
              (mkForest (childBoxes m M))) p
            (hany _ p hfit hkidsReg)
          rw [allPrims, allPrims, allPrims]
          simp only [List.append_assoc, List.append_nil]
          refine ((List.Perm.append_left _
            (List.Perm.append_right _
              (hfinal.trans (List.Perm.cons p hkidsPerm))))).trans ?_
          rw [List.cons_append]
          refine List.perm_middle.trans (List.Perm.cons p ?_)
          rw [← List.append_assoc]
          refine List.Perm.append_right (allPrims next) ?_
          exact List.perm_append_comm.trans
            (List.filter_append_perm (fun q => fitsCell bb m M q) ps)
        · rw [Bool.not_eq_true] at hfit
          rw [addP_succ_nochild_nofit fuel hfit]
          simp only [allPrims, List.append_assoc, List.nil_append,
            List.append_nil, List.singleton_append, List.cons_append]
          exact List.perm_middle
      | node a b cp cc cn =>
        by_cases hfit : anyRegion
            (fun cm cM => boxContainsBox cm cM (bb p).1 (bb p).2)
            (.node a b cp cc cn) = true
        · rw [addP_succ_child_fit fuel hfit]
          have h2 := hpushPerm (.node a b cp cc cn) p hfit
          simp only [allPrims, List.append_assoc] at h2 ⊢
          have h3 : (allPrims (pushC bb fuel (.node a b cp cc cn) p) ++
                allPrims next).Perm
              (p :: ((cp ++ (allPrims cc ++ allPrims cn)) ++ allPrims next)) :=
            List.Perm.append_right (allPrims next) h2
          have h4 := perm_append_cons ps h3
          simp only [List.append_assoc] at h4
          exact h4
        · rw [Bool.not_eq_true] at hfit
          rw [addP_succ_child_nofit fuel hfit]
          simp only [allPrims, List.append_assoc, List.nil_append,
            List.append_nil, List.singleton_append, List.cons_append]
          exact List.perm_middle

theorem foldl_addP_perm {P : Type} (bb : P → List Frac × List Frac)
    (fuel : Nat) : ∀ (l : List P) (t : STree P), t ≠ .nilt →
      (allPrims (l.foldl (fun u p => addP bb fuel u p) t)).Perm
        (l ++ allPrims t)
  | [], t, _ => List.Perm.refl _
  | p :: l, t, ht => by
    rw [List.foldl_cons]
    cases t with
    | nilt => exact absurd rfl ht
    | node m M ps cs next =>
      obtain ⟨ps', cs', he⟩ := addP_node_shape bb fuel m M ps cs next p
      have hne : addP bb fuel (.node m M ps cs next) p ≠ .nilt := by
        rw [he]
        simp
      have ih := foldl_addP_perm bb fuel l
        (addP bb fuel (.node m M ps cs next) p) hne
      refine ih.trans ?_
      refine (List.Perm.append_left l
        (addP_perm bb fuel _ p (by simp))).trans ?_
      rw [List.cons_append]
      exact List.perm_middle

/-- The primitives held in a built tree are exactly the inserted ones. -/
theorem buildTree_perm {P : Type} (bb : P → List Frac × List Frac)
    (rmin rmax : List Frac) (fuel : Nat) (prims : List P) :
    (allPrims (buildTree bb rmin rmax fuel prims)).Perm prims := by
  rw [buildTree]
  have h := foldl_addP_perm bb fuel prims (emptyTree rmin rmax) (by
    rw [emptyTree]
    simp)
  rw [emptyTree, allPrims, allPrims] at h
  simpa using h

/-- Claim C8: `add` is atomic — inserting a primitive into any tree node
fully integrates it (the tree afterwards holds exactly the new primitive
together with everything it held before, never a partial state); and every
query operation on an empty tree (root only, no primitives) returns a
null or empty result: `contains` returns none, the multi-result form
appends nothing, and `overlap_pairs` appends no pairs.  (A null primitive
reference is not representable in the model: the argument type enforces the
spec's precondition, so `add` never mutates a tree on a precondition
violation.) -/
theorem C8_add_atomic_and_empty_queries {P : Type}
    (bb : P → List Frac × List Frac) (pc : P → List Frac → Bool) :
    (∀ (fuel : Nat) (m M : List Frac) (ps : List P) (cs next : STree P)
        (p : P),
        (allPrims (addP bb fuel (.node m M ps cs next) p)).Perm
          (p :: allPrims (.node m M ps cs next))) ∧
    (∀ (rmin rmax pt : List Frac),
        containsPt bb pc (emptyTree rmin rmax) pt = none) ∧
    (∀ (rmin rmax pt : List Frac),
        containsMulti bb pc (emptyTree rmin rmax) pt = []) ∧
    (∀ rmin rmax : List Frac, overlapPairsF bb (emptyTree rmin rmax) = []) :=
  ⟨fun fuel m M ps cs next p => addP_perm bb fuel _ p (by simp),
    fun _ _ _ => rfl, fun _ _ _ => rfl, fun _ _ => rfl⟩

/-! ## Structural invariants of built trees -/

/-- Each node of a sibling chain holds its whole subtree's primitives
inside its own region. -/
def EachSub {P : Type} (bb : P → List Frac × List Frac) : STree P → Prop
  | .nilt => True
  | .node a b cp cc cn =>
    (∀ q ∈ cp ++ allPrims cc, boxContainsBox a b (bb q).1 (bb q).2 = true) ∧
      EachSub bb cn

/-- Well-formedness of a forest built by insertion, at remaining depth
budget `f`: a node's children (when present) are exactly the midpoint
cells in octant order; each child subtree's primitives lie in the child's
region; children exist only when fuel remained; when fuel remained, every
resident fits no child cell; and the invariant holds for the child chain at
budget `f - 1` and for the following siblings at budget `f`. -/
def TreeInv {P : Type} (bb : P → List Frac × List Frac) : Nat → STree P → Prop
  | _, .nilt => True
  | f, .node m M ps cs next =>
    (cs = .nilt ∨ chainRegions cs = childBoxes m M) ∧
      EachSub bb cs ∧
      (cs ≠ .nilt → 0 < f) ∧
      (0 < f → ∀ q ∈ ps, fitsCell bb m M q = false) ∧
      TreeInv bb (f - 1) cs ∧ TreeInv bb f next

theorem mkForest_eachSub {P : Type} (bb : P → List Frac × List Frac) :
    ∀ l : List (List Frac × List Frac), EachSub bb (mkForest (P := P) l)
  | [] => trivial
  | c :: rest => by
    rw [mkForest, EachSub]
    refine ⟨?_, mkForest_eachSub bb rest⟩
    intro q hq
    rw [allPrims] at hq
    simp at hq

theorem mkForest_inv {P : Type} (bb : P → List Frac × List Frac) (f : Nat) :
    ∀ l : List (List Frac × List Frac), TreeInv bb f (mkForest (P := P) l)
  | [] => trivial
  | c :: rest => by
    rw [mkForest, TreeInv]
    exact ⟨Or.inl rfl, trivial, fun h => absurd rfl h,
      fun _ q hq => by simp at hq, trivial, mkForest_inv bb f rest⟩

theorem insertFirstC_ne_nilt {P : Type} (f : STree P → STree P)
    (pred : List Frac → List Frac → Bool)
    (hf : ∀ m M ps cs next, f (.node m M ps cs next) ≠ .nilt) :
    ∀ ks : STree P, ks ≠ .nilt → insertFirstC f pred ks ≠ .nilt
  | .nilt, hk => absurd rfl hk
  | .node m M ps cs next, _ => by
    rw [insertFirstC]
    split
    · exact hf m M ps cs next
    · simp

theorem addP_perm_local {P : Type} (bb : P → List Frac × List Frac)
    {fuel : Nat} {m M : List Frac} {ps : List P} {cs next : STree P} {p : P}
    {ps' : List P} {cs' : STree P}
    (he : addP bb fuel (.node m M ps cs next) p = .node m M ps' cs' next) :
    (ps' ++ allPrims cs').Perm (p :: (ps ++ allPrims cs)) := by
  have h := addP_perm bb fuel (.node m M ps cs next) p (by simp)
  rw [he, allPrims, allPrims] at h
  have h2 : ((ps' ++ allPrims cs') ++ allPrims next).Perm
      ((p :: (ps ++ allPrims cs)) ++ allPrims next) := h
  exact (List.perm_append_right_iff _).mp h2

theorem pushC_chainRegions {P : Type} (bb : P → List Frac × List Frac)
    (fuel : Nat) (ks : STree P) (q : P) :
    chainRegions (pushC bb fuel ks q) = chainRegions ks :=
  insertFirstC_chainRegions _ _ (fun u => addP_chainRegions bb fuel u q) ks

theorem foldl_pushC_chainRegions {P : Type} (bb : P → List Frac × List Frac)
    (fuel : Nat) : ∀ (ds : List P) (ks : STree P),
      chainRegions (ds.foldl (pushC bb fuel) ks) = chainRegions ks
  | [], _ => rfl
  | v :: ds, ks => by
    rw [List.foldl_cons, foldl_pushC_chainRegions bb fuel ds,
      pushC_chainRegions]

theorem pushC_ne_nilt {P : Type} (bb : P → List Frac × List Frac)
    (fuel : Nat) (q : P) (ks : STree P) (hk : ks ≠ .nilt) :
    pushC bb fuel ks q ≠ .nilt := by
  refine insertFirstC_ne_nilt _ _ ?_ ks hk
  intro m M ps cs next
  obtain ⟨ps', cs', he⟩ := addP_node_shape bb fuel m M ps cs next q
  rw [he]
  simp

theorem pushC_eachSub {P : Type} (bb : P → List Frac × List Frac)
    (fuel : Nat) (q : P) :
    ∀ ks : STree P, EachSub bb ks → EachSub bb (pushC bb fuel ks q)
  | .nilt, h => h
  | .node a b cp cc cn, h => by
    rw [pushC, insertFirstC]
    split
    case isTrue hp =>
      obtain ⟨ps', cs', he⟩ := addP_node_shape bb fuel a b cp cc cn q
      rw [he, EachSub]
      rw [EachSub] at h
      refine ⟨?_, h.2⟩
      intro x hx
      have hperm := addP_perm_local bb he
      have hx2 := hperm.mem_iff.mp hx
      rcases List.mem_cons.mp hx2 with rfl | hx3
      · exact hp
      · exact h.1 x hx3
    case isFalse hp =>
      rw [EachSub] at h ⊢
      exact ⟨h.1, pushC_eachSub bb fuel q cn h.2⟩

theorem foldl_pushC_eachSub {P : Type} (bb : P → List Frac × List Frac)
    (fuel : Nat) : ∀ (ds : List P) (ks : STree P),
      EachSub bb ks → EachSub bb (ds.foldl (pushC bb fuel) ks)
  | [], _, h => h
  | v :: ds, ks, h => by
    rw [List.foldl_cons]
    exact foldl_pushC_eachSub bb fuel ds _ (pushC_eachSub bb fuel v ks h)

theorem pushC_inv {P : Type} (bb : P → List Frac × List Frac) (fuel : Nat)
    (q : P)
    (hadd : ∀ t : STree P, TreeInv bb fuel t →
      TreeInv bb fuel (addP bb fuel t q)) :
    ∀ ks : STree P, TreeInv bb fuel ks → TreeInv bb fuel (pushC bb fuel ks q)
  | .nilt, h => h
  | .node a b cp cc cn, h => by
    rw [pushC, insertFirstC]
    split
    · exact hadd _ h
    · rw [TreeInv] at h ⊢
      exact ⟨h.1, h.2.1, h.2.2.1, h.2.2.2.1, h.2.2.2.2.1,
        pushC_inv bb fuel q hadd cn h.2.2.2.2.2⟩

theorem foldl_pushC_inv {P : Type} (bb : P → List Frac × List Frac)
    (fuel : Nat)
    (hadd : ∀ (v : P) (t : STree P), TreeInv bb fuel t →
      TreeInv bb fuel (addP bb fuel t v)) :
    ∀ (ds : List P) (ks : STree P),
      TreeInv bb fuel ks → TreeInv bb fuel (ds.foldl (pushC bb fuel) ks)
  | [], _, h => h
  | v :: ds, ks, h => by
    rw [List.foldl_cons]
    exact foldl_pushC_inv bb fuel hadd ds _
      (pushC_inv bb fuel v (hadd v) ks h)

/-- Insertion preserves the structural invariant. -/
theorem addP_inv {P : Type} (bb : P → List Frac × List Frac) :
    ∀ (fuel : Nat) (t : STree P) (p : P),
      TreeInv bb fuel t → TreeInv bb fuel (addP bb fuel t p) := by
  intro fuel
  induction fuel with
  | zero =>
    intro t p h
    cases t with
    | nilt => exact h
    | node m M ps cs next =>
      rw [addP_zero]
      rw [TreeInv] at h ⊢
      exact ⟨h.1, h.2.1, h.2.2.1, fun h0 => absurd h0 (lt_irrefl 0),
        h.2.2.2.2.1, h.2.2.2.2.2⟩
  | succ fuel ih =>
    intro t p h
    cases t with
    | nilt => exact h
    | node m M ps cs next =>
      rw [TreeInv] at h
      cases cs with
      | nilt =>
        by_cases hfit : fitsCell bb m M p = true
        · rw [addP_succ_nochild_fit fuel hfit]
          rw [TreeInv]
          have hkids0inv := mkForest_inv bb fuel (childBoxes m M) (P := P)
          have hkids0sub := mkForest_eachSub bb (childBoxes m M) (P := P)
          refine ⟨Or.inr ?_, ?_, fun _ => Nat.succ_pos fuel, ?_, ?_, h.2.2.2.2.2⟩
          · rw [pushC_chainRegions, foldl_pushC_chainRegions,
              mkForest_chainRegions]
          · exact pushC_eachSub bb fuel p _
              (foldl_pushC_eachSub bb fuel _ _ hkids0sub)
          · intro _ q hq
            have := (List.mem_filter.mp hq).2
            simpa using this
          · simp only [Nat.add_sub_cancel]
            exact pushC_inv bb fuel p (fun u => ih u p) _
              (foldl_pushC_inv bb fuel (fun v u => ih u v) _ _ hkids0inv)
        · rw [Bool.not_eq_true] at hfit
          rw [addP_succ_nochild_nofit fuel hfit]
          rw [TreeInv]
          refine ⟨Or.inl rfl, trivial, fun hne => absurd rfl hne, ?_,
            trivial, h.2.2.2.2.2⟩
          intro hpos q hq
          rcases List.mem_append.mp hq with hq1 | hq2
          · exact h.2.2.2.1 hpos q hq1
          · rw [List.mem_singleton.mp hq2]
            exact hfit
      | node a b cp cc cn =>
        have hreg : chainRegions (.node (P := P) a b cp cc cn) = childBoxes m M := by
          rcases h.1 with hni | hr
          · exact absurd hni (by simp)
          · exact hr
        by_cases hfit : anyRegion
            (fun cm cM => boxContainsBox cm cM (bb p).1 (bb p).2)
            (.node a b cp cc cn) = true
        · rw [addP_succ_child_fit fuel hfit]
          rw [TreeInv]
          refine ⟨Or.inr ?_, ?_, fun _ => Nat.succ_pos fuel, h.2.2.2.1, ?_,
            h.2.2.2.2.2⟩
          · rw [pushC_chainRegions]
            exact hreg
          · exact pushC_eachSub bb fuel p _ h.2.1
          · simp only [Nat.add_sub_cancel] at h ⊢
            exact pushC_inv bb fuel p (fun u => ih u p) _ h.2.2.2.2.1
        · rw [Bool.not_eq_true] at hfit
          rw [addP_succ_child_nofit fuel hfit]
          rw [TreeInv]
          refine ⟨h.1, h.2.1, h.2.2.1, ?_, h.2.2.2.2.1, h.2.2.2.2.2⟩
          intro hpos q hq
          rcases List.mem_append.mp hq with hq1 | hq2
          · exact h.2.2.2.1 hpos q hq1
          · rw [List.mem_singleton.mp hq2]
            rw [anyRegion_eq] at hfit
            rw [fitsCell, ← hreg]
            exact hfit

theorem foldl_addP_inv {P : Type} (bb : P → List Frac × List Frac)
    (fuel : Nat) : ∀ (l : List P) (t : STree P), TreeInv bb fuel t →
      TreeInv bb fuel (l.foldl (fun u p => addP bb fuel u p) t)
  | [], _, h => h
  | p :: l, t, h =>
    foldl_addP_inv bb fuel l _ (addP_inv bb fuel t p h)

/-- A built tree satisfies the structural invariant. -/
theorem buildTree_inv {P : Type} (bb : P → List Frac × List Frac)
    (rmin rmax : List Frac) (fuel : Nat) (prims : List P) :
    TreeInv bb fuel (buildTree bb rmin rmax fuel prims) := by
  rw [buildTree]
  refine foldl_addP_inv bb fuel prims _ ?_
  rw [emptyTree, TreeInv]
  exact ⟨Or.inl rfl, trivial, fun hne => absurd rfl hne,
    fun _ q hq => by simp at hq, trivial, trivial⟩

/-! ## Counting overlap pairs -/

/-- Number of occurrences of the unordered pair `{x, y}` in an output
list, counting both orientations. -/
def symCount {P : Type} [DecidableEq P] (out : List (P × P)) (x y : P) :
    Nat :=
  out.count (x, y) + out.count (y, x)

theorem symCount_append {P : Type} [DecidableEq P] (l1 l2 : List (P × P))
    (x y : P) : symCount (l1 ++ l2) x y = symCount l1 x y + symCount l2 x y := by
  rw [symCount, symCount, symCount, List.count_append, List.count_append]
  omega

theorem count_map_pair {P : Type} [DecidableEq P] (p x y : P) :
    ∀ l : List P, ((l.map (fun q => (p, q))).count (x, y))
      = if x = p then l.count y else 0
  | [] => by simp
  | q :: l => by
    rw [List.map_cons, List.count_cons, count_map_pair p x y l,
      List.count_cons]
    simp only [beq_iff_eq, Prod.mk.injEq]
    by_cases hx : x = p
    · by_cases hy : y = q
      · simp [hx, hy]
      · have hy2 : ¬q = y := fun h => hy h.symm
        simp [hx, hy, hy2]
    · have hx2 : ¬p = x := fun h => hx h.symm
      simp [hx, hx2]

theorem count_filter_map_pair {P : Type} [DecidableEq P]
    (f : P → Bool) (p x y : P) (l : List P) :
    (((l.filter f).map (fun q => (p, q))).count (x, y))
      = if x = p ∧ f y = true then l.count y else 0 := by
  rw [count_map_pair]
  by_cases hx : x = p
  · rw [if_pos hx]
    by_cases hy : f y = true
    · rw [if_pos ⟨hx, hy⟩, List.count_filter hy]
    · rw [if_neg (fun h => hy h.2), List.count_eq_zero_of_not_mem]
      intro hmem
      exact hy (List.mem_filter.mp hmem).2
  · rw [if_neg hx, if_neg (fun h => hx h.1)]

theorem count_pairsAmong_head {P : Type} [DecidableEq P]
    (bb : P → List Frac × List Frac) (p x y : P) (ps : List P) :
    (((ps.filter (fun q => boxOverlap (bb p).1 (bb p).2 (bb q).1
        (bb q).2)).map (fun q => (p, q))).count (x, y))
      = if x = p ∧ boxOverlap (bb p).1 (bb p).2 (bb y).1 (bb y).2 = true
        then ps.count y else 0 :=
  count_filter_map_pair
    (fun q => boxOverlap (bb p).1 (bb p).2 (bb q).1 (bb q).2) p x y ps

/-- The unordered count of the resident-pair list of one node. -/
theorem symCount_pairsAmong {P : Type} [DecidableEq P]
    (bb : P → List Frac × List Frac) :
    ∀ ps : List P, ps.Nodup → ∀ x y : P,
      symCount (pairsAmong bb ps) x y =
        if x ∈ ps ∧ y ∈ ps ∧ x ≠ y ∧
            boxOverlap (bb x).1 (bb x).2 (bb y).1 (bb y).2 = true then 1
        else 0
  | [], _, x, y => by simp [pairsAmong, symCount]
  | p :: ps, hnd, x, y => by
    rw [List.nodup_cons] at hnd
    rw [pairsAmong, symCount_append, symCount, count_pairsAmong_head,
      count_pairsAmong_head, symCount_pairsAmong bb ps hnd.2 x y]
    by_cases hov : boxOverlap (bb x).1 (bb x).2 (bb y).1 (bb y).2 = true
    · by_cases hxy : x = y
      · subst hxy
        rw [if_neg (show ¬(x ∈ ps ∧ x ∈ ps ∧ x ≠ x ∧
            boxOverlap (bb x).1 (bb x).2 (bb x).1 (bb x).2 = true) from
            fun h => h.2.2.1 rfl),
          if_neg (show ¬(x ∈ p :: ps ∧ x ∈ p :: ps ∧ x ≠ x ∧
            boxOverlap (bb x).1 (bb x).2 (bb x).1 (bb x).2 = true) from
            fun h => h.2.2.1 rfl)]
        by_cases hxp : x = p
        · have hpx : boxOverlap (bb p).1 (bb p).2 (bb x).1 (bb x).2 = true := by
            rw [← hxp]
            exact hov
          rw [if_pos ⟨hxp, hpx⟩,
            List.count_eq_zero_of_not_mem (show x ∉ ps by
              rw [hxp]; exact hnd.1)]
        · rw [if_neg (show ¬(x = p ∧ boxOverlap (bb p).1 (bb p).2
              (bb x).1 (bb x).2 = true) from fun h => hxp h.1)]
      · by_cases hxp : x = p
        · rw [if_pos ⟨hxp, show boxOverlap (bb p).1 (bb p).2 (bb y).1
              (bb y).2 = true by rw [← hxp]; exact hov⟩,
            if_neg (show ¬(y = p ∧ boxOverlap (bb p).1 (bb p).2
              (bb x).1 (bb x).2 = true) from
              fun h => hxy (hxp.trans h.1.symm)),
            if_neg (show ¬(x ∈ ps ∧ y ∈ ps ∧ x ≠ y ∧
              boxOverlap (bb x).1 (bb x).2 (bb y).1 (bb y).2 = true) from
              fun h => hnd.1 (by rw [← hxp]; exact h.1))]
          by_cases hy : y ∈ ps
          · rw [List.count_eq_one_of_mem hnd.2 hy,
              if_pos ⟨(by rw [hxp]; exact List.mem_cons_self p ps),
                List.mem_cons_of_mem p hy, hxy, hov⟩]
          · rw [List.count_eq_zero_of_not_mem hy, if_neg]
            intro h
            rcases List.mem_cons.mp h.2.1 with h1 | h2
            · exact hxy (hxp.trans h1.symm)
            · exact hy h2
        · by_cases hyp : y = p
          · rw [if_neg (show ¬(x = p ∧ boxOverlap (bb p).1 (bb p).2
                (bb y).1 (bb y).2 = true) from fun h => hxp h.1),
              if_pos ⟨hyp, show boxOverlap (bb p).1 (bb p).2 (bb x).1
                (bb x).2 = true by
                rw [← hyp, boxOverlap_symm]; exact hov⟩,
              if_neg (show ¬(x ∈ ps ∧ y ∈ ps ∧ x ≠ y ∧
                boxOverlap (bb x).1 (bb x).2 (bb y).1 (bb y).2 = true) from
                fun h => hnd.1 (by rw [← hyp]; exact h.2.1))]
            by_cases hx : x ∈ ps
            · rw [List.count_eq_one_of_mem hnd.2 hx,
                if_pos ⟨List.mem_cons_of_mem p hx,
                  (by rw [hyp]; exact List.mem_cons_self p ps), hxy, hov⟩]
            · rw [List.count_eq_zero_of_not_mem hx, if_neg]
              intro h
              rcases List.mem_cons.mp h.1 with h1 | h2
              · exact hxp h1
              · exact hx h2
          · rw [if_neg (show ¬(x = p ∧ boxOverlap (bb p).1 (bb p).2
                (bb y).1 (bb y).2 = true) from fun h => hxp h.1),
              if_neg (show ¬(y = p ∧ boxOverlap (bb p).1 (bb p).2
                (bb x).1 (bb x).2 = true) from fun h => hyp h.1)]
            simp [List.mem_cons, hxp, hyp]
    · rw [if_neg (show ¬(x = p ∧ boxOverlap (bb p).1 (bb p).2
          (bb y).1 (bb y).2 = true) from fun h => hov (by
            rw [h.1]; exact h.2)),
        if_neg (show ¬(y = p ∧ boxOverlap (bb p).1 (bb p).2
          (bb x).1 (bb x).2 = true) from fun h => hov (by
            rw [boxOverlap_symm, h.1]; exact h.2)),
        if_neg (show ¬(x ∈ ps ∧ y ∈ ps ∧ x ≠ y ∧
          boxOverlap (bb x).1 (bb x).2 (bb y).1 (bb y).2 = true) from
          fun h => hov h.2.2.2),
        if_neg (show ¬(x ∈ p :: ps ∧ y ∈ p :: ps ∧ x ≠ y ∧
          boxOverlap (bb x).1 (bb x).2 (bb y).1 (bb y).2 = true) from
          fun h => hov h.2.2.2)]

theorem symCount_nil {P : Type} [DecidableEq P] (x y : P) :
    symCount ([] : List (P × P)) x y = 0 := rfl

/-- Hereditary form of `EachSub`: every node of the forest, at every depth,
holds its whole subtree's primitives inside its own region. -/
def SubWF {P : Type} (bb : P → List Frac × List Frac) : STree P → Prop
  | .nilt => True
  | .node m M ps cs next =>
    (∀ q ∈ ps ++ allPrims cs, boxContainsBox m M (bb q).1 (bb q).2 = true) ∧
      SubWF bb cs ∧ SubWF bb next

theorem subWF_of_inv {P : Type} (bb : P → List Frac × List Frac) :
    ∀ (f : Nat) (t : STree P), TreeInv bb f t → EachSub bb t → SubWF bb t
  | _, .nilt, _, _ => trivial
  | f, .node m M ps cs next, hinv, hsub => by
    rw [TreeInv] at hinv
    rw [EachSub] at hsub
    rw [SubWF]
    exact ⟨hsub.1, subWF_of_inv bb (f - 1) cs hinv.2.2.2.2.1 hinv.2.1,
      subWF_of_inv bb f next hinv.2.2.2.2.2 hsub.2⟩

/-- Two primitives held in non-overlapping regions have non-overlapping
bounding boxes. -/
theorem sep_no_overlap {P : Type} (bb : P → List Frac × List Frac)
    {x y : P} {c C d D : List Frac}
    (hx : boxContainsBox c C (bb x).1 (bb x).2 = true)
    (hy : boxContainsBox d D (bb y).1 (bb y).2 = true)
    (hcd : boxOverlap c C d D = false) :
    boxOverlap (bb x).1 (bb x).2 (bb y).1 (bb y).2 = false := by
  by_contra h
  rw [Bool.not_eq_false] at h
  have h1 : boxOverlap (bb x).1 (bb x).2 d D = true := boxOverlap_mono hy h
  rw [boxOverlap_symm] at h1
  have h2 : boxOverlap d D c C = true := boxOverlap_mono hx h1
  rw [boxOverlap_symm] at h2
  rw [hcd] at h2
  exact absurd h2 (by decide)

/-- Every primitive of a well-formed forest lies inside the region of one
of the chain's top nodes. -/
theorem allPrims_in_regions {P : Type} (bb : P → List Frac × List Frac) :
    ∀ t : STree P, SubWF bb t → ∀ q ∈ allPrims t,
      ∃ r ∈ chainRegions t, boxContainsBox r.1 r.2 (bb q).1 (bb q).2 = true
  | .nilt, _, q, hq => by
    rw [allPrims] at hq
    exact absurd hq (List.not_mem_nil q)
  | .node m M ps cs next, hwf, q, hq => by
    rw [SubWF] at hwf
    rw [allPrims] at hq
    rw [chainRegions]
    rcases List.mem_append.mp hq with h1 | h2
    · exact ⟨(m, M), List.mem_cons_self _ _, hwf.1 q h1⟩
    · obtain ⟨r, hr, hcont⟩ := allPrims_in_regions bb next hwf.2.2 q h2
      exact ⟨r, List.mem_cons_of_mem _ hr, hcont⟩

/-- The sibling cross scan emits nothing when the left region overlaps no
sibling region — in particular between midpoint-split siblings. -/
theorem sibOne_nil {P : Type} (bb : P → List Frac × List Frac)
    (m M : List Frac) (aps : List P) :
    ∀ t : STree P,
      (∀ r ∈ chainRegions t, boxOverlap m M r.1 r.2 = false) →
      sibOne bb m M aps t = []
  | .nilt, _ => rfl
  | .node m2 M2 ps2 cs2 next2, h => by
    rw [sibOne]
    have h1 := h (m2, M2) (by rw [chainRegions]; exact List.mem_cons_self _ _)
    rw [if_neg (show ¬(boxOverlap m M m2 M2 = true) from by
        rw [h1]; exact fun hh => absurd hh (by decide)),
      List.nil_append]
    exact sibOne_nil bb m M aps next2 (fun r hr => h r (by
      rw [chainRegions]; exact List.mem_cons_of_mem _ hr))

/-- Count of one oriented pair in the resident-versus-descendants scan:
under hereditary well-formedness the region pruning loses nothing. -/
theorem count_residentCrossF {P : Type} [DecidableEq P]
    (bb : P → List Frac × List Frac) (r : P) :
    ∀ cs : STree P, SubWF bb cs → ∀ x y : P,
      (residentCrossF bb r cs).count (x, y)
        = if x = r ∧ boxOverlap (bb r).1 (bb r).2 (bb y).1 (bb y).2 = true
          then (allPrims cs).count y else 0
  | .nilt, _, x, y => by
    rw [residentCrossF, allPrims]
    simp
  | .node m M ps cs next, hwf, x, y => by
    rw [SubWF] at hwf
    rw [residentCrossF, List.count_append,
      count_residentCrossF bb r next hwf.2.2 x y, allPrims,
      List.count_append, List.count_append]
    by_cases hp : boxOverlap (bb r).1 (bb r).2 m M = true
    · rw [if_pos hp, List.count_append, count_pairsAmong_head,
        count_residentCrossF bb r cs hwf.2.1 x y]
      by_cases hc : x = r ∧
          boxOverlap (bb r).1 (bb r).2 (bb y).1 (bb y).2 = true
      · rw [if_pos hc, if_pos hc, if_pos hc, if_pos hc]
      · rw [if_neg hc, if_neg hc, if_neg hc, if_neg hc]
    · rw [if_neg hp, List.count_nil]
      by_cases hc : x = r ∧
          boxOverlap (bb r).1 (bb r).2 (bb y).1 (bb y).2 = true
      · rw [if_pos hc, if_pos hc]
        have h0 : y ∉ ps ++ allPrims cs := by
          intro hy
          exact hp (boxOverlap_mono (hwf.1 y hy) hc.2)
        rw [List.count_eq_zero_of_not_mem
            (fun h => h0 (List.mem_append_left _ h)),
          List.count_eq_zero_of_not_mem
            (fun h => h0 (List.mem_append_right _ h))]
      · rw [if_neg hc, if_neg hc]

/-- Count of one oriented pair over a whole resident list crossed against
the descendant forest. -/
theorem count_crossAllC {P : Type} [DecidableEq P]
    (bb : P → List Frac × List Frac) (cs : STree P) (hwf : SubWF bb cs) :
    ∀ (ps : List P) (x y : P),
      (crossAllC bb ps cs).count (x, y)
        = if boxOverlap (bb x).1 (bb x).2 (bb y).1 (bb y).2 = true
          then ps.count x * (allPrims cs).count y else 0
  | [], x, y => by simp [crossAllC]
  | p :: ps, x, y => by
    have ih0 := count_crossAllC bb cs hwf ps x y
    have ih : (ps.flatMap (fun r => residentCrossF bb r cs)).count (x, y)
        = if boxOverlap (bb x).1 (bb x).2 (bb y).1 (bb y).2 = true
          then ps.count x * (allPrims cs).count y else 0 := ih0
    rw [crossAllC, List.flatMap_cons, List.count_append,
      count_residentCrossF bb p cs hwf x y, ih]
    by_cases hov : boxOverlap (bb x).1 (bb x).2 (bb y).1 (bb y).2 = true
    · rw [if_pos hov, if_pos hov, List.count_cons]
      by_cases hxp : x = p
      · subst hxp
        rw [if_pos ⟨rfl, hov⟩, if_pos (beq_self_eq_true x)]
        ring
      · rw [if_neg (fun h => hxp h.1),
          if_neg (show ¬((p == x) = true) from
            fun h => hxp (beq_iff_eq.mp h).symm)]
        simp
    · rw [if_neg hov, if_neg hov,
        if_neg (show ¬(x = p ∧ boxOverlap (bb p).1 (bb p).2 (bb y).1
          (bb y).2 = true) from fun h => hov (by rw [h.1]; exact h.2))]

/-- The unordered count of `overlap_pairs` over a well-formed forest whose
top-node regions are pairwise non-overlapping: each bbox-overlapping pair
of distinct primitives is produced exactly once, and nothing else. -/
theorem symCount_overlapPairsF {P : Type} [DecidableEq P]
    (bb : P → List Frac × List Frac) :
    ∀ (t : STree P) (f : Nat), TreeInv bb f t → SubWF bb t →
      List.Pairwise (fun c d => boxOverlap c.1 c.2 d.1 d.2 = false)
        (chainRegions t) →
      (allPrims t).Nodup → ∀ x y : P,
      symCount (overlapPairsF bb t) x y =
        if x ∈ allPrims t ∧ y ∈ allPrims t ∧ x ≠ y ∧
            boxOverlap (bb x).1 (bb x).2 (bb y).1 (bb y).2 = true then 1
        else 0
  | .nilt, _, _, _, _, _, x, y => by
    rw [overlapPairsF, symCount_nil, allPrims]
    simp
  | .node m M ps cs next, f, hinv, hwf, hpw, hnd, x, y => by
    rw [TreeInv] at hinv
    rw [SubWF] at hwf
    rw [chainRegions, List.pairwise_cons] at hpw
    rw [allPrims] at hnd ⊢
    obtain ⟨hndAB, hndC, hdisABC⟩ := List.nodup_append.mp hnd
    obtain ⟨hndA, hndB, hdisAB⟩ := List.nodup_append.mp hndAB
    have hpwcs : List.Pairwise
        (fun c d => boxOverlap c.1 c.2 d.1 d.2 = false) (chainRegions cs) := by
      rcases hinv.1 with h0 | h0
      · rw [h0, chainRegions]
        exact List.Pairwise.nil
      · rw [h0]
        exact childBoxes_pairwise m M
    have hsub : SubWF bb cs := hwf.2.1
    have ihcs := symCount_overlapPairsF bb cs (f - 1) hinv.2.2.2.2.1 hsub
      hpwcs hndB x y
    have ihnext := symCount_overlapPairsF bb next f hinv.2.2.2.2.2 hwf.2.2
      hpw.2 hndC x y
    have hsep : ∀ u v : P, u ∈ ps ++ allPrims cs → v ∈ allPrims next →
        boxOverlap (bb u).1 (bb u).2 (bb v).1 (bb v).2 = false := by
      intro u v hu hv
      obtain ⟨r, hr, hcont⟩ := allPrims_in_regions bb next hwf.2.2 v hv
      exact sep_no_overlap bb (hwf.1 u hu) hcont (hpw.1 r hr)
    have hsib : sibOne bb m M (ps ++ allPrims cs) next = [] :=
      sibOne_nil bb m M _ next hpw.1
    rw [overlapPairsF, symCount_append, symCount_append, symCount_append,
      symCount_append, symCount_pairsAmong bb ps hndA x y, hsib, symCount_nil,
      ihcs, ihnext, symCount, count_crossAllC bb cs hsub ps x y,
      count_crossAllC bb cs hsub ps y x,
      boxOverlap_symm (bb y).1 (bb y).2 (bb x).1 (bb x).2]
    by_cases hov : boxOverlap (bb x).1 (bb x).2 (bb y).1 (bb y).2 = true
    · rw [if_pos hov, if_pos hov]
      by_cases hxy : x = y
      · subst hxy
        rw [if_neg (show ¬(x ∈ ps ∧ x ∈ ps ∧ x ≠ x ∧
            boxOverlap (bb x).1 (bb x).2 (bb x).1 (bb x).2 = true) from
            fun h => h.2.2.1 rfl),
          if_neg (show ¬(x ∈ allPrims cs ∧ x ∈ allPrims cs ∧ x ≠ x ∧
            boxOverlap (bb x).1 (bb x).2 (bb x).1 (bb x).2 = true) from
            fun h => h.2.2.1 rfl),
          if_neg (show ¬(x ∈ allPrims next ∧ x ∈ allPrims next ∧ x ≠ x ∧
            boxOverlap (bb x).1 (bb x).2 (bb x).1 (bb x).2 = true) from
            fun h => h.2.2.1 rfl),
          if_neg (show ¬(x ∈ ps ++ allPrims cs ++ allPrims next ∧
            x ∈ ps ++ allPrims cs ++ allPrims next ∧ x ≠ x ∧
            boxOverlap (bb x).1 (bb x).2 (bb x).1 (bb x).2 = true) from
            fun h => h.2.2.1 rfl)]
        have h0 : List.count x ps * List.count x (allPrims cs) = 0 := by
          by_cases hx : x ∈ ps
          · rw [List.count_eq_zero_of_not_mem (fun hb => hdisAB hx hb),
              Nat.mul_zero]
          · rw [List.count_eq_zero_of_not_mem hx, Nat.zero_mul]
        rw [h0]
      · by_cases hxA : x ∈ ps
        · by_cases hyA : y ∈ ps
          · rw [if_pos ⟨hxA, hyA, hxy, hov⟩,
              List.count_eq_zero_of_not_mem
                (show y ∉ allPrims cs from fun hb => hdisAB hyA hb),
              List.count_eq_zero_of_not_mem
                (show x ∉ allPrims cs from fun hb => hdisAB hxA hb),
              if_neg (show ¬(x ∈ allPrims cs ∧ y ∈ allPrims cs ∧ x ≠ y ∧
                boxOverlap (bb x).1 (bb x).2 (bb y).1 (bb y).2 = true) from
                fun h => hdisAB hxA h.1),
              if_neg (show ¬(x ∈ allPrims next ∧ y ∈ allPrims next ∧ x ≠ y ∧
                boxOverlap (bb x).1 (bb x).2 (bb y).1 (bb y).2 = true) from
                fun h => hdisABC (List.mem_append_left _ hxA) h.1),
              if_pos ⟨List.mem_append_left _ (List.mem_append_left _ hxA),
                List.mem_append_left _ (List.mem_append_left _ hyA), hxy, hov⟩]
            omega
          · by_cases hyB : y ∈ allPrims cs
            · rw [List.count_eq_one_of_mem hndA hxA,
                List.count_eq_one_of_mem hndB hyB,
                List.count_eq_zero_of_not_mem hyA,
                if_neg (show ¬(x ∈ ps ∧ y ∈ ps ∧ x ≠ y ∧
                  boxOverlap (bb x).1 (bb x).2 (bb y).1 (bb y).2 = true) from
                  fun h => hyA h.2.1),
                if_neg (show ¬(x ∈ allPrims cs ∧ y ∈ allPrims cs ∧ x ≠ y ∧
                  boxOverlap (bb x).1 (bb x).2 (bb y).1 (bb y).2 = true) from
                  fun h => hdisAB hxA h.1),
                if_neg (show ¬(x ∈ allPrims next ∧ y ∈ allPrims next ∧
                  x ≠ y ∧
                  boxOverlap (bb x).1 (bb x).2 (bb y).1 (bb y).2 = true) from
                  fun h => hdisABC (List.mem_append_left _ hxA) h.1),
                if_pos ⟨List.mem_append_left _ (List.mem_append_left _ hxA),
                  List.mem_append_left _ (List.mem_append_right _ hyB),
                  hxy, hov⟩]
              omega
            · by_cases hyC : y ∈ allPrims next
              · have hz := hsep x y (List.mem_append_left _ hxA) hyC
                rw [hz] at hov
                exact absurd hov (by decide)
              · rw [List.count_eq_zero_of_not_mem hyB,
                  List.count_eq_zero_of_not_mem hyA,
                  if_neg (show ¬(x ∈ ps ∧ y ∈ ps ∧ x ≠ y ∧
                    boxOverlap (bb x).1 (bb x).2 (bb y).1 (bb y).2 = true)
                    from fun h => hyA h.2.1),
                  if_neg (show ¬(x ∈ allPrims cs ∧ y ∈ allPrims cs ∧
                    x ≠ y ∧
                    boxOverlap (bb x).1 (bb x).2 (bb y).1 (bb y).2 = true)
                    from fun h => hyB h.2.1),
                  if_neg (show ¬(x ∈ allPrims next ∧ y ∈ allPrims next ∧
                    x ≠ y ∧
                    boxOverlap (bb x).1 (bb x).2 (bb y).1 (bb y).2 = true)
                    from fun h => hyC h.2.1),
                  if_neg (show ¬(x ∈ ps ++ allPrims cs ++ allPrims next ∧
                    y ∈ ps ++ allPrims cs ++ allPrims next ∧ x ≠ y ∧
                    boxOverlap (bb x).1 (bb x).2 (bb y).1 (bb y).2 = true)
                    from fun h => (List.mem_append.mp h.2.1).elim
                      (fun h1 => (List.mem_append.mp h1).elim hyA hyB) hyC)]
                omega
        · by_cases hxB : x ∈ allPrims cs
          · by_cases hyA : y ∈ ps
            · rw [List.count_eq_zero_of_not_mem hxA,
                List.count_eq_one_of_mem hndA hyA,
                List.count_eq_one_of_mem hndB hxB,
                if_neg (show ¬(x ∈ ps ∧ y ∈ ps ∧ x ≠ y ∧
                  boxOverlap (bb x).1 (bb x).2 (bb y).1 (bb y).2 = true) from
                  fun h => hxA h.1),
                if_neg (show ¬(x ∈ allPrims cs ∧ y ∈ allPrims cs ∧ x ≠ y ∧
                  boxOverlap (bb x).1 (bb x).2 (bb y).1 (bb y).2 = true) from
                  fun h => hdisAB hyA h.2.1),
                if_neg (show ¬(x ∈ allPrims next ∧ y ∈ allPrims next ∧
                  x ≠ y ∧
                  boxOverlap (bb x).1 (bb x).2 (bb y).1 (bb y).2 = true) from
                  fun h => hdisABC (List.mem_append_right _ hxB) h.1),
                if_pos ⟨List.mem_append_left _ (List.mem_append_right _ hxB),
                  List.mem_append_left _ (List.mem_append_left _ hyA),
                  hxy, hov⟩]
              omega
            · by_cases hyB : y ∈ allPrims cs
              · rw [List.count_eq_zero_of_not_mem hxA,
                  List.count_eq_zero_of_not_mem hyA,
                  if_neg (show ¬(x ∈ ps ∧ y ∈ ps ∧ x ≠ y ∧
                    boxOverlap (bb x).1 (bb x).2 (bb y).1 (bb y).2 = true)
                    from fun h => hxA h.1),
                  if_pos ⟨hxB, hyB, hxy, hov⟩,
                  if_neg (show ¬(x ∈ allPrims next ∧ y ∈ allPrims next ∧
                    x ≠ y ∧
                    boxOverlap (bb x).1 (bb x).2 (bb y).1 (bb y).2 = true)
                    from fun h => hdisABC (List.mem_append_right _ hxB) h.1),
                  if_pos ⟨List.mem_append_left _
                      (List.mem_append_right _ hxB),
                    List.mem_append_left _ (List.mem_append_right _ hyB),
                    hxy, hov⟩]
                omega
              · by_cases hyC : y ∈ allPrims next
                · have hz := hsep x y (List.mem_append_right _ hxB) hyC
                  rw [hz] at hov
                  exact absurd hov (by decide)
                · rw [List.count_eq_zero_of_not_mem hyB,
                    List.count_eq_zero_of_not_mem hyA,
                    if_neg (show ¬(x ∈ ps ∧ y ∈ ps ∧ x ≠ y ∧
                      boxOverlap (bb x).1 (bb x).2 (bb y).1 (bb y).2 = true)
                      from fun h => hyA h.2.1),
                    if_neg (show ¬(x ∈ allPrims cs ∧ y ∈ allPrims cs ∧
                      x ≠ y ∧
                      boxOverlap (bb x).1 (bb x).2 (bb y).1 (bb y).2 = true)
                      from fun h => hyB h.2.1),
                    if_neg (show ¬(x ∈ allPrims next ∧ y ∈ allPrims next ∧
                      x ≠ y ∧
                      boxOverlap (bb x).1 (bb x).2 (bb y).1 (bb y).2 = true)
                      from fun h => hyC h.2.1),
                    if_neg (show ¬(x ∈ ps ++ allPrims cs ++ allPrims next ∧
                      y ∈ ps ++ allPrims cs ++ allPrims next ∧ x ≠ y ∧
                      boxOverlap (bb x).1 (bb x).2 (bb y).1 (bb y).2 = true)
                      from fun h => (List.mem_append.mp h.2.1).elim
                        (fun h1 => (List.mem_append.mp h1).elim hyA hyB)
                        hyC)]
                  omega
          · by_cases hxC : x ∈ allPrims next
            · by_cases hyAB : y ∈ ps ++ allPrims cs
              · have hz := hsep y x hyAB hxC
                rw [boxOverlap_symm] at hov
                rw [hz] at hov
                exact absurd hov (by decide)
              · by_cases hyC : y ∈ allPrims next
                · have hyA : y ∉ ps :=
                    fun h => hyAB (List.mem_append_left _ h)
                  rw [List.count_eq_zero_of_not_mem hxA,
                    List.count_eq_zero_of_not_mem hyA,
                    if_neg (show ¬(x ∈ ps ∧ y ∈ ps ∧ x ≠ y ∧
                      boxOverlap (bb x).1 (bb x).2 (bb y).1 (bb y).2 = true)
                      from fun h => hxA h.1),
                    if_neg (show ¬(x ∈ allPrims cs ∧ y ∈ allPrims cs ∧
                      x ≠ y ∧
                      boxOverlap (bb x).1 (bb x).2 (bb y).1 (bb y).2 = true)
                      from fun h => hxB h.1),
                    if_pos ⟨hxC, hyC, hxy, hov⟩,
                    if_pos ⟨List.mem_append_right _ hxC,
                      List.mem_append_right _ hyC, hxy, hov⟩]
                  omega
                · have hyA : y ∉ ps :=
                    fun h => hyAB (List.mem_append_left _ h)
                  have hyB : y ∉ allPrims cs :=
                    fun h => hyAB (List.mem_append_right _ h)
                  rw [List.count_eq_zero_of_not_mem hxA,
                    List.count_eq_zero_of_not_mem hyA,
                    if_neg (show ¬(x ∈ ps ∧ y ∈ ps ∧ x ≠ y ∧
                      boxOverlap (bb x).1 (bb x).2 (bb y).1 (bb y).2 = true)
                      from fun h => hxA h.1),
                    if_neg (show ¬(x ∈ allPrims cs ∧ y ∈ allPrims cs ∧
                      x ≠ y ∧
                      boxOverlap (bb x).1 (bb x).2 (bb y).1 (bb y).2 = true)
                      from fun h => hxB h.1),
                    if_neg (show ¬(x ∈ allPrims next ∧ y ∈ allPrims next ∧
                      x ≠ y ∧
                      boxOverlap (bb x).1 (bb x).2 (bb y).1 (bb y).2 = true)
                      from fun h => hyC h.2.1),
                    if_neg (show ¬(x ∈ ps ++ allPrims cs ++ allPrims next ∧
                      y ∈ ps ++ allPrims cs ++ allPrims next ∧ x ≠ y ∧
                      boxOverlap (bb x).1 (bb x).2 (bb y).1 (bb y).2 = true)
                      from fun h => (List.mem_append.mp h.2.1).elim
                        (fun h1 => (List.mem_append.mp h1).elim hyA hyB)
                        hyC)]
                  omega
            · have hxU : x ∉ ps ++ allPrims cs ++ allPrims next := fun h =>
                (List.mem_append.mp h).elim
                  (fun h1 => (List.mem_append.mp h1).elim hxA hxB) hxC
              rw [List.count_eq_zero_of_not_mem hxA,
                List.count_eq_zero_of_not_mem hxB,
                if_neg (show ¬(x ∈ ps ∧ y ∈ ps ∧ x ≠ y ∧
                  boxOverlap (bb x).1 (bb x).2 (bb y).1 (bb y).2 = true) from
                  fun h => hxA h.1),
                if_neg (show ¬(x ∈ allPrims cs ∧ y ∈ allPrims cs ∧ x ≠ y ∧
                  boxOverlap (bb x).1 (bb x).2 (bb y).1 (bb y).2 = true) from
                  fun h => hxB h.1),
                if_neg (show ¬(x ∈ allPrims next ∧ y ∈ allPrims next ∧
                  x ≠ y ∧
                  boxOverlap (bb x).1 (bb x).2 (bb y).1 (bb y).2 = true) from
                  fun h => hxC h.1),
                if_neg (show ¬(x ∈ ps ++ allPrims cs ++ allPrims next ∧
                  y ∈ ps ++ allPrims cs ++ allPrims next ∧ x ≠ y ∧
                  boxOverlap (bb x).1 (bb x).2 (bb y).1 (bb y).2 = true) from
                  fun h => hxU h.1)]
              omega
    · rw [if_neg hov, if_neg hov,
        if_neg (show ¬(x ∈ ps ∧ y ∈ ps ∧ x ≠ y ∧
          boxOverlap (bb x).1 (bb x).2 (bb y).1 (bb y).2 = true) from
          fun h => hov h.2.2.2),
        if_neg (show ¬(x ∈ allPrims cs ∧ y ∈ allPrims cs ∧ x ≠ y ∧
          boxOverlap (bb x).1 (bb x).2 (bb y).1 (bb y).2 = true) from
          fun h => hov h.2.2.2),
        if_neg (show ¬(x ∈ allPrims next ∧ y ∈ allPrims next ∧ x ≠ y ∧
          boxOverlap (bb x).1 (bb x).2 (bb y).1 (bb y).2 = true) from
          fun h => hov h.2.2.2),
        if_neg (show ¬(x ∈ ps ++ allPrims cs ++ allPrims next ∧
          y ∈ ps ++ allPrims cs ++ allPrims next ∧ x ≠ y ∧
          boxOverlap (bb x).1 (bb x).2 (bb y).1 (bb y).2 = true) from
          fun h => hov h.2.2.2)]

theorem foldl_addP_shape {P : Type} (bb : P → List Frac × List Frac)
    (fuel : Nat) :
    ∀ (l : List P) (m M : List Frac) (ps : List P) (cs : STree P),
      ∃ ps' cs',
        l.foldl (fun t p => addP bb fuel t p) (.node m M ps cs .nilt)
          = .node m M ps' cs' .nilt
  | [], _, _, ps, cs => ⟨ps, cs, rfl⟩
  | p :: l, m, M, ps, cs => by
    obtain ⟨ps1, cs1, h1⟩ := addP_node_shape bb fuel m M ps cs .nilt p
    rw [List.foldl_cons, h1]
    exact foldl_addP_shape bb fuel l m M ps1 cs1

/-- A built tree is a single root node over the root region with no
following siblings. -/
theorem buildTree_shape {P : Type} (bb : P → List Frac × List Frac)
    (rmin rmax : List Frac) (fuel : Nat) (prims : List P) :
    ∃ ps cs, buildTree bb rmin rmax fuel prims
      = .node rmin rmax ps cs .nilt := by
  rw [buildTree, emptyTree]
  exact foldl_addP_shape bb fuel prims rmin rmax [] .nilt

/-- `overlap_pairs` on a tree built by inserting distinct primitives emits
each bbox-overlapping unordered pair of distinct primitives exactly once
(in one orientation or the other) and nothing else. -/
theorem symCount_buildTree {P : Type} [DecidableEq P]
    (bb : P → List Frac × List Frac) (rmin rmax : List Frac) (fuel : Nat)
    (prims : List P) (hnd : prims.Nodup) (x y : P) :
    symCount (overlapPairsF bb (buildTree bb rmin rmax fuel prims)) x y =
      if x ∈ prims ∧ y ∈ prims ∧ x ≠ y ∧
          boxOverlap (bb x).1 (bb x).2 (bb y).1 (bb y).2 = true then 1
      else 0 := by
  obtain ⟨ps, cs, hshape⟩ := buildTree_shape bb rmin rmax fuel prims
  have hinv := buildTree_inv bb rmin rmax fuel prims
  have hperm := buildTree_perm bb rmin rmax fuel prims
  rw [hshape] at hinv hperm ⊢
  rw [TreeInv] at hinv
  rw [allPrims, allPrims] at hperm
  rw [List.append_nil] at hperm
  have hndall : (ps ++ allPrims cs).Nodup := hperm.nodup_iff.mpr hnd
  obtain ⟨hndA, hndB, hdisAB⟩ := List.nodup_append.mp hndall
  have hsub : SubWF bb cs :=
    subWF_of_inv bb (fuel - 1) cs hinv.2.2.2.2.1 hinv.2.1
  have hpwcs : List.Pairwise
      (fun c d => boxOverlap c.1 c.2 d.1 d.2 = false) (chainRegions cs) := by
    rcases hinv.1 with h0 | h0
    · rw [h0, chainRegions]
      exact List.Pairwise.nil
    · rw [h0]
      exact childBoxes_pairwise rmin rmax
  have ihcs := symCount_overlapPairsF bb cs (fuel - 1) hinv.2.2.2.2.1 hsub
    hpwcs hndB x y
  simp only [← hperm.mem_iff]
  rw [overlapPairsF, symCount_append, symCount_append, symCount_append,
    symCount_append, symCount_pairsAmong bb ps hndA x y,
    show sibOne bb rmin rmax (ps ++ allPrims cs) (.nilt : STree P) = []
      from rfl,
    symCount_nil, ihcs,
    show overlapPairsF bb (.nilt : STree P) = [] from rfl, symCount_nil,
    symCount, count_crossAllC bb cs hsub ps x y,
    count_crossAllC bb cs hsub ps y x,
    boxOverlap_symm (bb y).1 (bb y).2 (bb x).1 (bb x).2]
  by_cases hov : boxOverlap (bb x).1 (bb x).2 (bb y).1 (bb y).2 = true
  · rw [if_pos hov, if_pos hov]
    by_cases hxy : x = y
    · subst hxy
      rw [if_neg (show ¬(x ∈ ps ∧ x ∈ ps ∧ x ≠ x ∧
          boxOverlap (bb x).1 (bb x).2 (bb x).1 (bb x).2 = true) from
          fun h => h.2.2.1 rfl),
        if_neg (show ¬(x ∈ allPrims cs ∧ x ∈ allPrims cs ∧ x ≠ x ∧
          boxOverlap (bb x).1 (bb x).2 (bb x).1 (bb x).2 = true) from
          fun h => h.2.2.1 rfl),
        if_neg (show ¬(x ∈ ps ++ allPrims cs ∧ x ∈ ps ++ allPrims cs ∧
          x ≠ x ∧
          boxOverlap (bb x).1 (bb x).2 (bb x).1 (bb x).2 = true) from
          fun h => h.2.2.1 rfl)]
      have h0 : List.count x ps * List.count x (allPrims cs) = 0 := by
        by_cases hx : x ∈ ps
        · rw [List.count_eq_zero_of_not_mem (fun hb => hdisAB hx hb),
            Nat.mul_zero]
        · rw [List.count_eq_zero_of_not_mem hx, Nat.zero_mul]
      rw [h0]
    · by_cases hxA : x ∈ ps
      · by_cases hyA : y ∈ ps
        · rw [if_pos ⟨hxA, hyA, hxy, hov⟩,
            List.count_eq_zero_of_not_mem
              (show y ∉ allPrims cs from fun hb => hdisAB hyA hb),
            List.count_eq_zero_of_not_mem
              (show x ∉ allPrims cs from fun hb => hdisAB hxA hb),
            if_neg (show ¬(x ∈ allPrims cs ∧ y ∈ allPrims cs ∧ x ≠ y ∧
              boxOverlap (bb x).1 (bb x).2 (bb y).1 (bb y).2 = true) from
              fun h => hdisAB hxA h.1),
            if_pos ⟨List.mem_append_left _ hxA,
              List.mem_append_left _ hyA, hxy, hov⟩]
          omega
        · by_cases hyB : y ∈ allPrims cs
          · rw [List.count_eq_one_of_mem hndA hxA,
              List.count_eq_one_of_mem hndB hyB,
              List.count_eq_zero_of_not_mem hyA,
              if_neg (show ¬(x ∈ ps ∧ y ∈ ps ∧ x ≠ y ∧
                boxOverlap (bb x).1 (bb x).2 (bb y).1 (bb y).2 = true) from
                fun h => hyA h.2.1),
              if_neg (show ¬(x ∈ allPrims cs ∧ y ∈ allPrims cs ∧ x ≠ y ∧
                boxOverlap (bb x).1 (bb x).2 (bb y).1 (bb y).2 = true) from
                fun h => hdisAB hxA h.1),
              if_pos ⟨List.mem_append_left _ hxA,
                List.mem_append_right _ hyB, hxy, hov⟩]
            omega
          · rw [List.count_eq_zero_of_not_mem hyB,
              List.count_eq_zero_of_not_mem hyA,
              if_neg (show ¬(x ∈ ps ∧ y ∈ ps ∧ x ≠ y ∧
                boxOverlap (bb x).1 (bb x).2 (bb y).1 (bb y).2 = true) from
                fun h => hyA h.2.1),
              if_neg (show ¬(x ∈ allPrims cs ∧ y ∈ allPrims cs ∧ x ≠ y ∧
                boxOverlap (bb x).1 (bb x).2 (bb y).1 (bb y).2 = true) from
                fun h => hyB h.2.1),
              if_neg (show ¬(x ∈ ps ++ allPrims cs ∧
                y ∈ ps ++ allPrims cs ∧ x ≠ y ∧
                boxOverlap (bb x).1 (bb x).2 (bb y).1 (bb y).2 = true) from
                fun h => (List.mem_append.mp h.2.1).elim hyA hyB)]
            omega
      · by_cases hxB : x ∈ allPrims cs
        · by_cases hyA : y ∈ ps
          · rw [List.count_eq_zero_of_not_mem hxA,
              List.count_eq_one_of_mem hndA hyA,
              List.count_eq_one_of_mem hndB hxB,
              if_neg (show ¬(x ∈ ps ∧ y ∈ ps ∧ x ≠ y ∧
                boxOverlap (bb x).1 (bb x).2 (bb y).1 (bb y).2 = true) from
                fun h => hxA h.1),
              if_neg (show ¬(x ∈ allPrims cs ∧ y ∈ allPrims cs ∧ x ≠ y ∧
                boxOverlap (bb x).1 (bb x).2 (bb y).1 (bb y).2 = true) from
                fun h => hdisAB hyA h.2.1),
              if_pos ⟨List.mem_append_right _ hxB,
                List.mem_append_left _ hyA, hxy, hov⟩]
            omega
          · by_cases hyB : y ∈ allPrims cs
            · rw [List.count_eq_zero_of_not_mem hxA,
                List.count_eq_zero_of_not_mem hyA,
                if_neg (show ¬(x ∈ ps ∧ y ∈ ps ∧ x ≠ y ∧
                  boxOverlap (bb x).1 (bb x).2 (bb y).1 (bb y).2 = true)
                  from fun h => hxA h.1),
                if_pos ⟨hxB, hyB, hxy, hov⟩,
                if_pos ⟨List.mem_append_right _ hxB,
                  List.mem_append_right _ hyB, hxy, hov⟩]
              omega
            · rw [List.count_eq_zero_of_not_mem hyB,
                List.count_eq_zero_of_not_mem hyA,
                if_neg (show ¬(x ∈ ps ∧ y ∈ ps ∧ x ≠ y ∧
                  boxOverlap (bb x).1 (bb x).2 (bb y).1 (bb y).2 = true)
                  from fun h => hyA h.2.1),
                if_neg (show ¬(x ∈ allPrims cs ∧ y ∈ allPrims cs ∧ x ≠ y ∧
                  boxOverlap (bb x).1 (bb x).2 (bb y).1 (bb y).2 = true)
                  from fun h => hyB h.2.1),
                if_neg (show ¬(x ∈ ps ++ allPrims cs ∧
                  y ∈ ps ++ allPrims cs ∧ x ≠ y ∧
                  boxOverlap (bb x).1 (bb x).2 (bb y).1 (bb y).2 = true)
                  from fun h => (List.mem_append.mp h.2.1).elim hyA hyB)]
              omega
        · have hxU : x ∉ ps ++ allPrims cs := fun h =>
            (List.mem_append.mp h).elim hxA hxB
          rw [List.count_eq_zero_of_not_mem hxA,
            List.count_eq_zero_of_not_mem hxB,
            if_neg (show ¬(x ∈ ps ∧ y ∈ ps ∧ x ≠ y ∧
              boxOverlap (bb x).1 (bb x).2 (bb y).1 (bb y).2 = true) from
              fun h => hxA h.1),
            if_neg (show ¬(x ∈ allPrims cs ∧ y ∈ allPrims cs ∧ x ≠ y ∧
              boxOverlap (bb x).1 (bb x).2 (bb y).1 (bb y).2 = true) from
              fun h => hxB h.1),
            if_neg (show ¬(x ∈ ps ++ allPrims cs ∧ y ∈ ps ++ allPrims cs ∧
              x ≠ y ∧
              boxOverlap (bb x).1 (bb x).2 (bb y).1 (bb y).2 = true) from
              fun h => hxU h.1)]
          omega
  · rw [if_neg hov, if_neg hov,
      if_neg (show ¬(x ∈ ps ∧ y ∈ ps ∧ x ≠ y ∧
        boxOverlap (bb x).1 (bb x).2 (bb y).1 (bb y).2 = true) from
        fun h => hov h.2.2.2),
      if_neg (show ¬(x ∈ allPrims cs ∧ y ∈ allPrims cs ∧ x ≠ y ∧
        boxOverlap (bb x).1 (bb x).2 (bb y).1 (bb y).2 = true) from
        fun h => hov h.2.2.2),
      if_neg (show ¬(x ∈ ps ++ allPrims cs ∧ y ∈ ps ++ allPrims cs ∧
        x ≠ y ∧
        boxOverlap (bb x).1 (bb x).2 (bb y).1 (bb y).2 = true) from
        fun h => hov h.2.2.2)]

/-- C1: for every set of distinct primitives inserted into a spatial tree,
`overlap_pairs` emits each unordered pair of distinct primitives whose
bounding boxes overlap exactly once — counting both orientations together —
and emits no self pair, no duplicate and no non-overlapping pair. -/
theorem C1_overlap_pairs_exactly_once {P : Type} [DecidableEq P]
    (bb : P → List Frac × List Frac) (rmin rmax : List Frac) (fuel : Nat)
    (prims : List P) (hnd : prims.Nodup) (x y : P) :
    symCount (overlapPairsF bb (buildTree bb rmin rmax fuel prims)) x y =
      if x ∈ prims ∧ y ∈ prims ∧ x ≠ y ∧
          boxOverlap (bb x).1 (bb x).2 (bb y).1 (bb y).2 = true then 1
      else 0 :=
  symCount_buildTree bb rmin rmax fuel prims hnd x y

theorem C1_overlap_pairs_exactly_once_witness :
    symCount (overlapPairsF gbb (buildTree gbb fixRoot2.1 fixRoot2.2 fixFuel
      [g0₂, g1₂, g2₂, g3₂, g4₂])) g2₂ g1₂ = 1 :=
  (C1_overlap_pairs_exactly_once gbb fixRoot2.1 fixRoot2.2 fixFuel
    [g0₂, g1₂, g2₂, g3₂, g4₂] (by decide) g2₂ g1₂).trans (by decide)

/-- C7: for a fixed final set of distinct primitives, the unordered-pair
content of `overlap_pairs` is the same for every insertion order. -/
theorem C7_insertion_order_independence {P : Type} [DecidableEq P]
    (bb : P → List Frac × List Frac) (rmin rmax : List Frac) (fuel : Nat)
    (l1 l2 : List P) (hp : l1.Perm l2) (hnd : l1.Nodup) (x y : P) :
    symCount (overlapPairsF bb (buildTree bb rmin rmax fuel l1)) x y =
      symCount (overlapPairsF bb (buildTree bb rmin rmax fuel l2)) x y := by
  rw [symCount_buildTree bb rmin rmax fuel l1 hnd x y,
    symCount_buildTree bb rmin rmax fuel l2 (hp.nodup_iff.mp hnd) x y]
  simp only [hp.mem_iff]

theorem C7_insertion_order_independence_witness :
    symCount (overlapPairsF gbb (buildTree gbb fixRoot2.1 fixRoot2.2 fixFuel
        [g0₂, g1₂, g2₂, g3₂, g4₂])) g4₂ g1₂ =
      symCount (overlapPairsF gbb (buildTree gbb fixRoot2.1 fixRoot2.2
        fixFuel [g4₂, g3₂, g2₂, g1₂, g0₂])) g4₂ g1₂ :=
  C7_insertion_order_independence gbb fixRoot2.1 fixRoot2.2 fixFuel
    [g0₂, g1₂, g2₂, g3₂, g4₂] [g4₂, g3₂, g2₂, g1₂, g0₂] (by decide)
    (by decide) g4₂ g1₂

/-- Any primitive returned by the chain descent of the single-result
`contains` is held in the forest, its bounding box contains the query point
and its exact test accepts the point. -/
theorem containsPtF_sound {P : Type} (bb : P → List Frac × List Frac)
    (pc : P → List Frac → Bool) (pt : List Frac) :
    ∀ (t : STree P) (q : P), containsPtF bb pc pt t = some q →
      q ∈ allPrims t ∧ boxContainsPt (bb q).1 (bb q).2 pt = true ∧
        pc q pt = true
  | .nilt, q, h => by
    rw [containsPtF] at h
    exact absurd h (by simp)
  | .node m M ps cs next, q, h => by
    rw [containsPtF] at h
    rw [allPrims]
    by_cases hin : boxContainsPt m M pt = true
    · rw [if_pos hin] at h
      cases hfind : List.find?
          (fun r => boxContainsPt (bb r).1 (bb r).2 pt && pc r pt) ps with
      | some q2 =>
        simp only [hfind] at h
        rw [Option.some.injEq] at h
        subst h
        have hmem := List.mem_of_find?_eq_some hfind
        have hprop := List.find?_some hfind
        rw [Bool.and_eq_true] at hprop
        exact ⟨List.mem_append_left _ (List.mem_append_left _ hmem),
          hprop.1, hprop.2⟩
      | none =>
        simp only [hfind] at h
        obtain ⟨h1, h2, h3⟩ := containsPtF_sound bb pc pt cs q h
        exact ⟨List.mem_append_left _ (List.mem_append_right _ h1), h2, h3⟩
    · rw [if_neg hin] at h
      obtain ⟨h1, h2, h3⟩ := containsPtF_sound bb pc pt next q h
      exact ⟨List.mem_append_right _ h1, h2, h3⟩

/-- Soundness of the single-result `contains` at the root. -/
theorem containsPt_sound {P : Type} (bb : P → List Frac × List Frac)
    (pc : P → List Frac → Bool) (t : STree P) (pt : List Frac) (q : P)
    (h : containsPt bb pc t pt = some q) :
    q ∈ allPrims t ∧ boxContainsPt (bb q).1 (bb q).2 pt = true ∧
      pc q pt = true := by
  cases t with
  | nilt =>
    simp only [containsPt] at h
    exact absurd h (by simp)
  | node m M ps cs next =>
    simp only [containsPt] at h
    rw [allPrims]
    cases hfind : List.find?
        (fun r => boxContainsPt (bb r).1 (bb r).2 pt && pc r pt) ps with
    | some q2 =>
      simp only [hfind] at h
      rw [Option.some.injEq] at h
      subst h
      have hmem := List.mem_of_find?_eq_some hfind
      have hprop := List.find?_some hfind
      rw [Bool.and_eq_true] at hprop
      exact ⟨List.mem_append_left _ (List.mem_append_left _ hmem),
        hprop.1, hprop.2⟩
    | none =>
      simp only [hfind] at h
      obtain ⟨h1, h2, h3⟩ := containsPtF_sound bb pc pt cs q h
      exact ⟨List.mem_append_left _ (List.mem_append_right _ h1), h2, h3⟩

/-- Any primitive appended by the chain descent of the multi-result
`contains` is held in the forest and satisfies both tests. -/
theorem containsAllF_mem {P : Type} (bb : P → List Frac × List Frac)
    (pc : P → List Frac → Bool) (pt : List Frac) :
    ∀ (t : STree P) (q : P), q ∈ containsAllF bb pc pt t →
      q ∈ allPrims t ∧ boxContainsPt (bb q).1 (bb q).2 pt = true ∧
        pc q pt = true
  | .nilt, q, h => by
    rw [containsAllF] at h
    exact absurd h (List.not_mem_nil q)
  | .node m M ps cs next, q, h => by
    rw [containsAllF] at h
    rw [allPrims]
    by_cases hin : boxContainsPt m M pt = true
    · rw [if_pos hin] at h
      rcases List.mem_append.mp h with h1 | h2
      · have hf := List.mem_filter.mp h1
        have hp := hf.2
        rw [Bool.and_eq_true] at hp
        exact ⟨List.mem_append_left _ (List.mem_append_left _ hf.1),
          hp.1, hp.2⟩
      · obtain ⟨h1, h2, h3⟩ := containsAllF_mem bb pc pt cs q h2
        exact ⟨List.mem_append_left _ (List.mem_append_right _ h1), h2, h3⟩
    · rw [if_neg hin] at h
      obtain ⟨h1, h2, h3⟩ := containsAllF_mem bb pc pt next q h
      exact ⟨List.mem_append_right _ h1, h2, h3⟩

/-- Soundness of the multi-result `contains` at the root. -/
theorem containsMulti_mem {P : Type} (bb : P → List Frac × List Frac)
    (pc : P → List Frac → Bool) (t : STree P) (pt : List Frac) (q : P)
    (h : q ∈ containsMulti bb pc t pt) :
    q ∈ allPrims t ∧ boxContainsPt (bb q).1 (bb q).2 pt = true ∧
      pc q pt = true := by
  cases t with
  | nilt =>
    rw [containsMulti] at h
    exact absurd h (List.not_mem_nil q)
  | node m M ps cs next =>
    rw [containsMulti] at h
    rw [allPrims]
    rcases List.mem_append.mp h with h1 | h2
    · have hf := List.mem_filter.mp h1
      have hp := hf.2
      rw [Bool.and_eq_true] at hp
      exact ⟨List.mem_append_left _ (List.mem_append_left _ hf.1),
        hp.1, hp.2⟩
    · obtain ⟨h1, h2, h3⟩ := containsAllF_mem bb pc pt cs q h2
      exact ⟨List.mem_append_left _ (List.mem_append_right _ h1), h2, h3⟩

/-- C2: for every query point, the single-result `contains` returns a
primitive only if it was inserted, its bounding box contains the point and
its exact containment test accepts the point; when no inserted primitive
satisfies both conditions, the single-result form returns the null result
and the multi-result form appends nothing. -/
theorem C2_contains_sound {P : Type} (bb : P → List Frac × List Frac)
    (pc : P → List Frac → Bool) (rmin rmax : List Frac) (fuel : Nat)
    (prims : List P) (pt : List Frac) :
    (∀ q : P,
        containsPt bb pc (buildTree bb rmin rmax fuel prims) pt = some q →
        q ∈ prims ∧ boxContainsPt (bb q).1 (bb q).2 pt = true ∧
          pc q pt = true) ∧
    ((∀ q ∈ prims, ¬(boxContainsPt (bb q).1 (bb q).2 pt = true ∧
          pc q pt = true)) →
      containsPt bb pc (buildTree bb rmin rmax fuel prims) pt = none ∧
      containsMulti bb pc (buildTree bb rmin rmax fuel prims) pt = []) := by
  have hperm := buildTree_perm bb rmin rmax fuel prims
  constructor
  · intro q hq
    obtain ⟨h1, h2, h3⟩ := containsPt_sound bb pc _ pt q hq
    exact ⟨hperm.mem_iff.mp h1, h2, h3⟩
  · intro hnone
    constructor
    · cases hc : containsPt bb pc (buildTree bb rmin rmax fuel prims) pt with
      | none => rfl
      | some q =>
        obtain ⟨h1, h2, h3⟩ := containsPt_sound bb pc _ pt q hc
        exact absurd ⟨h2, h3⟩ (hnone q (hperm.mem_iff.mp h1))
    · refine List.eq_nil_iff_forall_not_mem.mpr ?_
      intro q hq
      obtain ⟨h1, h2, h3⟩ := containsMulti_mem bb pc _ pt q hq
      exact hnone q (hperm.mem_iff.mp h1) ⟨h2, h3⟩


/-- Number of node residencies of one primitive over a forest. -/
def residCount {P : Type} [DecidableEq P] (p : P) : STree P → Nat
  | .nilt => 0
  | .node _ _ ps cs next => ps.count p + residCount p cs + residCount p next

/-- The regions of all nodes of a forest, at every depth. -/
def allRegions {P : Type} : STree P → List (List Frac × List Frac)
  | .nilt => []
  | .node m M _ cs next => (m, M) :: (allRegions cs ++ allRegions next)

/-- The regions of the nodes at which one primitive is resident. -/
def residRegions {P : Type} [DecidableEq P] (p : P) :
    STree P → List (List Frac × List Frac)
  | .nilt => []
  | .node m M ps cs next =>
    (if p ∈ ps then [(m, M)] else []) ++
      (residRegions p cs ++ residRegions p next)

/-- The regions of the nodes whose region fully contains the given box. -/
def nodeRegionsContaining {P : Type} (bmin bmax : List Frac) :
    STree P → List (List Frac × List Frac)
  | .nilt => []
  | .node m M _ cs next =>
    (if boxContainsBox m M bmin bmax then [(m, M)] else []) ++
      (nodeRegionsContaining bmin bmax cs ++
        nodeRegionsContaining bmin bmax next)

theorem residCount_eq_count {P : Type} [DecidableEq P] (p : P) :
    ∀ t : STree P, residCount p t = (allPrims t).count p
  | .nilt => rfl
  | .node m M ps cs next => by
    rw [residCount, allPrims, List.count_append, List.count_append,
      residCount_eq_count p cs, residCount_eq_count p next]

/-- A primitive resident at a node of an invariant tree fits no child
region of that node. -/
theorem resident_no_child_region {P : Type} (bb : P → List Frac × List Frac)
    {f : Nat} {m M : List Frac} {ps : List P} {cs next : STree P} {p : P}
    (hinv : TreeInv bb f (.node m M ps cs next)) (hp : p ∈ ps) :
    ∀ r ∈ chainRegions cs,
      boxContainsBox r.1 r.2 (bb p).1 (bb p).2 = false := by
  rw [TreeInv] at hinv
  intro r hr
  cases cs with
  | nilt =>
    rw [chainRegions] at hr
    exact absurd hr (List.not_mem_nil r)
  | node a b c2 d2 e2 =>
    have hreg : chainRegions (STree.node a b c2 d2 e2) = childBoxes m M := by
      rcases hinv.1 with h0 | h0
      · exact absurd h0 (by simp)
      · exact h0
    have hpos : 0 < f := hinv.2.2.1 (by simp)
    have hfits := hinv.2.2.2.1 hpos p hp
    rw [fitsCell] at hfits
    rw [hreg] at hr
    cases hb : boxContainsBox r.1 r.2 (bb p).1 (bb p).2 with
    | false => rfl
    | true =>
      have hany : (childBoxes m M).any
          (fun c => boxContainsBox c.1 c.2 (bb p).1 (bb p).2) = true :=
        List.any_eq_true.mpr ⟨r, hr, hb⟩
      rw [hfits] at hany
      exact absurd hany (by decide)

/-- Each inserted distinct primitive is resident exactly once in a built
tree. -/
theorem buildTree_residCount {P : Type} [DecidableEq P]
    (bb : P → List Frac × List Frac) (rmin rmax : List Frac) (fuel : Nat)
    (prims : List P) (hnd : prims.Nodup) (p : P) (hp : p ∈ prims) :
    residCount p (buildTree bb rmin rmax fuel prims) = 1 := by
  rw [residCount_eq_count]
  have hperm := buildTree_perm bb rmin rmax fuel prims
  rw [hperm.count_eq]
  exact List.count_eq_one_of_mem hnd hp

theorem leAll_refl : ∀ l : List Frac, leAll l l = true
  | [] => rfl
  | x :: xs => by rw [leAll, fle_iff.mpr le_rfl, leAll_refl xs]; rfl

/-- Every region contains itself. -/
theorem boxContainsBox_refl (m M : List Frac) :
    boxContainsBox m M m M = true := by
  rw [boxContainsBox, leAll_refl, leAll_refl]; rfl

/-- A primitive with a residence region appears among the forest's
primitives. -/
theorem mem_allPrims_of_residRegions {P : Type} [DecidableEq P] (p : P) :
    ∀ t : STree P, ∀ d ∈ residRegions p t, p ∈ allPrims t
  | .nilt, d, hd => by
    rw [residRegions] at hd
    exact absurd hd (List.not_mem_nil d)
  | .node m M ps cs next, d, hd => by
    rw [residRegions] at hd
    rw [allPrims]
    rcases List.mem_append.mp hd with h1 | h23
    · by_cases hp : p ∈ ps
      · exact List.mem_append_left _ (List.mem_append_left _ hp)
      · rw [if_neg hp] at h1
        exact absurd h1 (List.not_mem_nil d)
    · rcases List.mem_append.mp h23 with h2 | h3
      · exact List.mem_append_left _ (List.mem_append_right _
          (mem_allPrims_of_residRegions p cs d h2))
      · exact List.mem_append_right _
          (mem_allPrims_of_residRegions p next d h3)

/-- Residence regions are node regions. -/
theorem residRegions_sub_allRegions {P : Type} [DecidableEq P] (p : P) :
    ∀ t : STree P, ∀ d ∈ residRegions p t, d ∈ allRegions t
  | .nilt, d, hd => by
    rw [residRegions] at hd
    exact absurd hd (List.not_mem_nil d)
  | .node m M ps cs next, d, hd => by
    rw [residRegions] at hd
    rw [allRegions]
    rcases List.mem_append.mp hd with h1 | h23
    · by_cases hp : p ∈ ps
      · rw [if_pos hp] at h1
        rw [List.mem_singleton.mp h1]
        exact List.mem_cons_self _ _
      · rw [if_neg hp] at h1
        exact absurd h1 (List.not_mem_nil d)
    · rcases List.mem_append.mp h23 with h2 | h3
      · exact List.mem_cons_of_mem _ (List.mem_append_left _
          (residRegions_sub_allRegions p cs d h2))
      · exact List.mem_cons_of_mem _ (List.mem_append_right _
          (residRegions_sub_allRegions p next d h3))

/-- The collected containing regions are node regions and do contain the
box. -/
theorem mem_nodeRegionsContaining {P : Type} (bmin bmax : List Frac) :
    ∀ t : STree P, ∀ r ∈ nodeRegionsContaining bmin bmax t,
      r ∈ allRegions t ∧ boxContainsBox r.1 r.2 bmin bmax = true
  | .nilt, r, hr => by
    rw [nodeRegionsContaining] at hr
    exact absurd hr (List.not_mem_nil r)
  | .node m M ps cs next, r, hr => by
    rw [nodeRegionsContaining] at hr
    rw [allRegions]
    rcases List.mem_append.mp hr with h1 | h23
    · by_cases hc : boxContainsBox m M bmin bmax = true
      · rw [if_pos hc] at h1
        have hE := List.mem_singleton.mp h1
        subst hE
        exact ⟨List.mem_cons_self _ _, hc⟩
      · rw [if_neg hc] at h1
        exact absurd h1 (List.not_mem_nil r)
    · rcases List.mem_append.mp h23 with h2 | h3
      · obtain ⟨ha, hb⟩ := mem_nodeRegionsContaining bmin bmax cs r h2
        exact ⟨List.mem_cons_of_mem _ (List.mem_append_left _ ha), hb⟩
      · obtain ⟨ha, hb⟩ := mem_nodeRegionsContaining bmin bmax next r h3
        exact ⟨List.mem_cons_of_mem _ (List.mem_append_right _ ha), hb⟩

/-- In a hereditarily well-formed chain, every residence region of a
primitive fully contains its bounding box. -/
theorem residRegions_contain {P : Type} [DecidableEq P]
    (bb : P → List Frac × List Frac) (p : P) :
    ∀ t : STree P, SubWF bb t → ∀ d ∈ residRegions p t,
      boxContainsBox d.1 d.2 (bb p).1 (bb p).2 = true
  | .nilt, _, d, hd => by
    rw [residRegions] at hd
    exact absurd hd (List.not_mem_nil d)
  | .node m M ps cs next, hwf, d, hd => by
    rw [SubWF] at hwf
    rw [residRegions] at hd
    rcases List.mem_append.mp hd with h1 | h23
    · by_cases hp : p ∈ ps
      · rw [if_pos hp] at h1
        have hE := List.mem_singleton.mp h1
        subst hE
        exact hwf.1 p (List.mem_append_left _ hp)
      · rw [if_neg hp] at h1
        exact absurd h1 (List.not_mem_nil d)
    · rcases List.mem_append.mp h23 with h2 | h3
      · exact residRegions_contain bb p cs hwf.2.1 d h2
      · exact residRegions_contain bb p next hwf.2.2 d h3

/-- Regions nest: every node region of an invariant forest lies inside the
region of one of the chain's top nodes. -/
theorem allRegions_nested {P : Type} (bb : P → List Frac × List Frac) :
    ∀ (t : STree P) (f : Nat), TreeInv bb f t →
      (∀ c ∈ chainRegions t, leAll c.1 c.2 = true) →
      ∀ r ∈ allRegions t,
        ∃ c ∈ chainRegions t, boxContainsBox c.1 c.2 r.1 r.2 = true
  | .nilt, _, _, _, r, hr => by
    rw [allRegions] at hr
    exact absurd hr (List.not_mem_nil r)
  | .node m M ps cs next, f, hinv, hval, r, hr => by
    rw [TreeInv] at hinv
    rw [allRegions] at hr
    rw [chainRegions]
    have hvalmM : leAll m M = true :=
      hval (m, M) (by rw [chainRegions]; exact List.mem_cons_self _ _)
    rcases List.mem_cons.mp hr with rfl | hr2
    · exact ⟨(m, M), List.mem_cons_self _ _, boxContainsBox_refl m M⟩
    rcases List.mem_append.mp hr2 with h1 | h2
    · have hvalcs : ∀ c ∈ chainRegions cs, leAll c.1 c.2 = true := by
        intro c hc
        rcases hinv.1 with h0 | h0
        · rw [h0, chainRegions] at hc
          exact absurd hc (List.not_mem_nil c)
        · rw [h0] at hc
          exact (childBoxes_sub hvalmM c hc).2
      obtain ⟨c, hc, hcr⟩ := allRegions_nested bb cs (f - 1)
        hinv.2.2.2.2.1 hvalcs r h1
      have hcsub : boxContainsBox m M c.1 c.2 = true := by
        rcases hinv.1 with h0 | h0
        · rw [h0, chainRegions] at hc
          exact absurd hc (List.not_mem_nil c)
        · rw [h0] at hc
          exact (childBoxes_sub hvalmM c hc).1
      exact ⟨(m, M), List.mem_cons_self _ _, boxContainsBox_trans hcsub hcr⟩
    · obtain ⟨c, hc, hcr⟩ := allRegions_nested bb next f hinv.2.2.2.2.2
        (fun c hc => hval c (by
          rw [chainRegions]; exact List.mem_cons_of_mem _ hc)) r h2
      exact ⟨c, List.mem_cons_of_mem _ hc, hcr⟩

/-- In a hereditarily well-formed chain with valid, pairwise-disjoint top
regions, every residence region of a positive-extent primitive is contained
in every node region that contains the primitive's bounding box: the
resident node is a deepest containing node. -/
theorem deepest_chain {P : Type} [DecidableEq P]
    (bb : P → List Frac × List Frac) (p : P)
    (hpos : ltAll (bb p).1 (bb p).2 = true) :
    ∀ (t : STree P) (f : Nat), TreeInv bb f t → SubWF bb t →
      (∀ c ∈ chainRegions t, leAll c.1 c.2 = true) →
      List.Pairwise (fun c d => boxOverlap c.1 c.2 d.1 d.2 = false)
        (chainRegions t) →
      ∀ d ∈ residRegions p t,
        ∀ r ∈ nodeRegionsContaining (bb p).1 (bb p).2 t,
          boxContainsBox r.1 r.2 d.1 d.2 = true
  | .nilt, _, _, _, _, _, d, hd, r, hr => by
    rw [residRegions] at hd
    exact absurd hd (List.not_mem_nil d)
  | .node m M ps cs next, f, hinv, hwf, hval, hpw, d, hd, r, hr => by
    have hinv2 := hinv
    rw [TreeInv] at hinv2
    have hwf2 := hwf
    rw [SubWF] at hwf2
    rw [chainRegions, List.pairwise_cons] at hpw
    have hvalmM : leAll m M = true :=
      hval (m, M) (by rw [chainRegions]; exact List.mem_cons_self _ _)
    have hcellsub : ∀ c ∈ chainRegions cs,
        boxContainsBox m M c.1 c.2 = true ∧ leAll c.1 c.2 = true := by
      intro c hc
      rcases hinv2.1 with h0 | h0
      · rw [h0, chainRegions] at hc
        exact absurd hc (List.not_mem_nil c)
      · rw [h0] at hc
        exact childBoxes_sub hvalmM c hc
    have hpwcs : List.Pairwise
        (fun c d => boxOverlap c.1 c.2 d.1 d.2 = false) (chainRegions cs) := by
      rcases hinv2.1 with h0 | h0
      · rw [h0, chainRegions]
        exact List.Pairwise.nil
      · rw [h0]
        exact childBoxes_pairwise m M
    rw [residRegions] at hd
    rw [nodeRegionsContaining] at hr
    rcases List.mem_append.mp hd with hd1 | hd23
    · by_cases hpps : p ∈ ps
      · rw [if_pos hpps] at hd1
        have hE := List.mem_singleton.mp hd1
        subst hE
        rcases List.mem_append.mp hr with hr1 | hr23
        · by_cases hc : boxContainsBox m M (bb p).1 (bb p).2 = true
          · rw [if_pos hc] at hr1
            rw [List.mem_singleton.mp hr1]
            exact boxContainsBox_refl m M
          · rw [if_neg hc] at hr1
            exact absurd hr1 (List.not_mem_nil r)
        rcases List.mem_append.mp hr23 with hr2 | hr3
        · obtain ⟨hrAll, hrCont⟩ :=
            mem_nodeRegionsContaining (bb p).1 (bb p).2 cs r hr2
          obtain ⟨c, hcmem, hcr⟩ := allRegions_nested bb cs (f - 1)
            hinv2.2.2.2.2.1 (fun c hc => (hcellsub c hc).2) r hrAll
          have hcCont := boxContainsBox_trans hcr hrCont
          have hno := resident_no_child_region bb hinv hpps c hcmem
          rw [hno] at hcCont
          exact absurd hcCont (by decide)
        · obtain ⟨hrAll, hrCont⟩ :=
            mem_nodeRegionsContaining (bb p).1 (bb p).2 next r hr3
          obtain ⟨c, hcmem, hcr⟩ := allRegions_nested bb next f
            hinv2.2.2.2.2.2 (fun c hc => hval c (by
              rw [chainRegions]; exact List.mem_cons_of_mem _ hc)) r hrAll
          have hcCont := boxContainsBox_trans hcr hrCont
          have hmCont : boxContainsBox m M (bb p).1 (bb p).2 = true :=
            hwf2.1 p (List.mem_append_left _ hpps)
          have hov := boxOverlap_of_common hmCont hcCont hpos
          have hne : boxOverlap m M c.1 c.2 = false := hpw.1 c hcmem
          rw [hne] at hov
          exact absurd hov (by decide)
      · rw [if_neg hpps] at hd1
        exact absurd hd1 (List.not_mem_nil d)
    rcases List.mem_append.mp hd23 with hd2 | hd3
    · have hdAll := residRegions_sub_allRegions p cs d hd2
      obtain ⟨cd, hcdmem, hcdd⟩ := allRegions_nested bb cs (f - 1)
        hinv2.2.2.2.2.1 (fun c hc => (hcellsub c hc).2) d hdAll
      have hmd : boxContainsBox m M d.1 d.2 = true :=
        boxContainsBox_trans (hcellsub cd hcdmem).1 hcdd
      have hpcs : p ∈ allPrims cs := mem_allPrims_of_residRegions p cs d hd2
      have hmbb : boxContainsBox m M (bb p).1 (bb p).2 = true :=
        hwf2.1 p (List.mem_append_right _ hpcs)
      rcases List.mem_append.mp hr with hr1 | hr23
      · rw [if_pos hmbb] at hr1
        rw [List.mem_singleton.mp hr1]
        exact hmd
      rcases List.mem_append.mp hr23 with hr2 | hr3
      · exact deepest_chain bb p hpos cs (f - 1) hinv2.2.2.2.2.1 hwf2.2.1
          (fun c hc => (hcellsub c hc).2) hpwcs d hd2 r hr2
      · obtain ⟨hrAll, hrCont⟩ :=
          mem_nodeRegionsContaining (bb p).1 (bb p).2 next r hr3
        obtain ⟨c, hcmem, hcr⟩ := allRegions_nested bb next f
          hinv2.2.2.2.2.2 (fun c hc => hval c (by
            rw [chainRegions]; exact List.mem_cons_of_mem _ hc)) r hrAll
        have hcCont := boxContainsBox_trans hcr hrCont
        have hov := boxOverlap_of_common hmbb hcCont hpos
        have hne : boxOverlap m M c.1 c.2 = false := hpw.1 c hcmem
        rw [hne] at hov
        exact absurd hov (by decide)
    · have hpnext : p ∈ allPrims next :=
        mem_allPrims_of_residRegions p next d hd3
      obtain ⟨c2, hc2mem, hc2bb⟩ :=
        allPrims_in_regions bb next hwf2.2.2 p hpnext
      have hne2 : boxOverlap m M c2.1 c2.2 = false := hpw.1 c2 hc2mem
      rcases List.mem_append.mp hr with hr1 | hr23
      · by_cases hcp : boxContainsBox m M (bb p).1 (bb p).2 = true
        · have hov := boxOverlap_of_common hcp hc2bb hpos
          rw [hne2] at hov
          exact absurd hov (by decide)
        · rw [if_neg hcp] at hr1
          exact absurd hr1 (List.not_mem_nil r)
      rcases List.mem_append.mp hr23 with hr2 | hr3
      · obtain ⟨hrAll, hrCont⟩ :=
          mem_nodeRegionsContaining (bb p).1 (bb p).2 cs r hr2
        obtain ⟨c, hcmem, hcr⟩ := allRegions_nested bb cs (f - 1)
          hinv2.2.2.2.2.1 (fun c hc => (hcellsub c hc).2) r hrAll
        have hmCont := boxContainsBox_trans (hcellsub c hcmem).1
          (boxContainsBox_trans hcr hrCont)
        have hov := boxOverlap_of_common hmCont hc2bb hpos
        rw [hne2] at hov
        exact absurd hov (by decide)
      · exact deepest_chain bb p hpos next f hinv2.2.2.2.2.2 hwf2.2.2
          (fun c hc => hval c (by
            rw [chainRegions]; exact List.mem_cons_of_mem _ hc))
          hpw.2 d hd3 r hr3

/-- C4: after any sequence of insertions of distinct primitives, every
inserted primitive whose positive-extent bounding box lies inside the root
region — the state the program's root-region growth establishes before a
primitive descends — is resident in exactly one node of the tree, namely
the deepest node whose region fully contains the primitive's bounding box:
every residence region contains the bounding box and is itself contained in
every node region of the tree that contains the bounding box. -/
theorem C4_unique_deepest_residence {P : Type} [DecidableEq P]
    (bb : P → List Frac × List Frac) (rmin rmax : List Frac) (fuel : Nat)
    (prims : List P) (hnd : prims.Nodup) (p : P) (hp : p ∈ prims)
    (hval : leAll rmin rmax = true)
    (hpos : ltAll (bb p).1 (bb p).2 = true)
    (hroot : boxContainsBox rmin rmax (bb p).1 (bb p).2 = true) :
    residCount p (buildTree bb rmin rmax fuel prims) = 1 ∧
      ∀ d ∈ residRegions p (buildTree bb rmin rmax fuel prims),
        boxContainsBox d.1 d.2 (bb p).1 (bb p).2 = true ∧
        ∀ r ∈ nodeRegionsContaining (bb p).1 (bb p).2
            (buildTree bb rmin rmax fuel prims),
          boxContainsBox r.1 r.2 d.1 d.2 = true := by
  obtain ⟨ps, cs, hshape⟩ := buildTree_shape bb rmin rmax fuel prims
  have hres := buildTree_residCount bb rmin rmax fuel prims hnd p hp
  have hinv := buildTree_inv bb rmin rmax fuel prims
  rw [hshape] at hres hinv ⊢
  have hinv2 := hinv
  rw [TreeInv] at hinv2
  have hsub : SubWF bb cs :=
    subWF_of_inv bb (fuel - 1) cs hinv2.2.2.2.2.1 hinv2.2.1
  have hcellsub : ∀ c ∈ chainRegions cs,
      boxContainsBox rmin rmax c.1 c.2 = true ∧ leAll c.1 c.2 = true := by
    intro c hc
    rcases hinv2.1 with h0 | h0
    · rw [h0, chainRegions] at hc
      exact absurd hc (List.not_mem_nil c)
    · rw [h0] at hc
      exact childBoxes_sub hval c hc
  have hpwcs : List.Pairwise
      (fun c d => boxOverlap c.1 c.2 d.1 d.2 = false) (chainRegions cs) := by
    rcases hinv2.1 with h0 | h0
    · rw [h0, chainRegions]
      exact List.Pairwise.nil
    · rw [h0]
      exact childBoxes_pairwise rmin rmax
  refine ⟨hres, ?_⟩
  intro d hd
  rw [residRegions] at hd
  rcases List.mem_append.mp hd with hd1 | hd23
  · by_cases hpps : p ∈ ps
    · rw [if_pos hpps] at hd1
      have hE := List.mem_singleton.mp hd1
      subst hE
      refine ⟨hroot, ?_⟩
      intro r hr
      rw [nodeRegionsContaining] at hr
      rcases List.mem_append.mp hr with hr1 | hr23
      · rw [if_pos hroot] at hr1
        rw [List.mem_singleton.mp hr1]
        exact boxContainsBox_refl rmin rmax
      rcases List.mem_append.mp hr23 with hr2 | hr3
      · obtain ⟨hrAll, hrCont⟩ :=
          mem_nodeRegionsContaining (bb p).1 (bb p).2 cs r hr2
        obtain ⟨c, hcmem, hcr⟩ := allRegions_nested bb cs (fuel - 1)
          hinv2.2.2.2.2.1 (fun c hc => (hcellsub c hc).2) r hrAll
        have hcCont := boxContainsBox_trans hcr hrCont
        have hno := resident_no_child_region bb hinv hpps c hcmem
        rw [hno] at hcCont
        exact absurd hcCont (by decide)
      · rw [nodeRegionsContaining] at hr3
        exact absurd hr3 (List.not_mem_nil r)
    · rw [if_neg hpps] at hd1
      exact absurd hd1 (List.not_mem_nil d)
  rcases List.mem_append.mp hd23 with hd2 | hd3
  · refine ⟨residRegions_contain bb p cs hsub d hd2, ?_⟩
    intro r hr
    rw [nodeRegionsContaining] at hr
    have hdAll := residRegions_sub_allRegions p cs d hd2
    obtain ⟨cd, hcdmem, hcdd⟩ := allRegions_nested bb cs (fuel - 1)
      hinv2.2.2.2.2.1 (fun c hc => (hcellsub c hc).2) d hdAll
    have hrootd : boxContainsBox rmin rmax d.1 d.2 = true :=
      boxContainsBox_trans (hcellsub cd hcdmem).1 hcdd
    rcases List.mem_append.mp hr with hr1 | hr23
    · rw [if_pos hroot] at hr1
      rw [List.mem_singleton.mp hr1]
      exact hrootd
    rcases List.mem_append.mp hr23 with hr2 | hr3
    · exact deepest_chain bb p hpos cs (fuel - 1) hinv2.2.2.2.2.1 hsub
        (fun c hc => (hcellsub c hc).2) hpwcs d hd2 r hr2
    · rw [nodeRegionsContaining] at hr3
      exact absurd hr3 (List.not_mem_nil r)
  · rw [residRegions] at hd3
    exact absurd hd3 (List.not_mem_nil d)

theorem C4_unique_deepest_residence_witness :
    residCount g1₂ (buildTree gbb fixRoot2.1 fixRoot2.2 fixFuel
        [g0₂, g1₂, g2₂, g3₂]) = 1 ∧
      ∀ d ∈ residRegions g1₂ (buildTree gbb fixRoot2.1 fixRoot2.2 fixFuel
          [g0₂, g1₂, g2₂, g3₂]),
        boxContainsBox d.1 d.2 (gbb g1₂).1 (gbb g1₂).2 = true ∧
        ∀ r ∈ nodeRegionsContaining (gbb g1₂).1 (gbb g1₂).2
            (buildTree gbb fixRoot2.1 fixRoot2.2 fixFuel
              [g0₂, g1₂, g2₂, g3₂]),
          boxContainsBox r.1 r.2 d.1 d.2 = true :=
  C4_unique_deepest_residence gbb fixRoot2.1 fixRoot2.2 fixFuel
    [g0₂, g1₂, g2₂, g3₂] (by decide) g1₂ (by decide) (by decide) (by decide)
    (by decide)
